import Mathlib

/-!
Verification of the rust-vpk package tool: a shallow embedding of the
index model, codec, packer layout, verifier and read façade, with
theorems settling the specification claims.
-/

namespace RustVpk

/-- `DIR_INDEX` from src/src/consts.rs: sentinel archive index `0x7FFF`. -/
def DIR_INDEX : Nat := 0x7FFF

/-- `TERMINATOR` from src/src/consts.rs: the `0xFFFF` word after each record. -/
def TERMINATOR : Nat := 0xFFFF

/-- Model of `entry::File` (src/src/entry.rs). Machine integers become `Nat`
(with `% 2^w` applied at the operations where wrap-around matters);
`preload` is the list of preload bytes. -/
structure VFile where
  index : Nat
  crc32 : Nat
  inline_size : Nat
  archive_index : Nat
  offset : Nat
  size : Nat
  preload : List Nat
deriving Repr, DecidableEq

/-- Model of `entry::Entry` (src/src/entry.rs): a file, or a directory whose
`HashMap<String, Entry>` of children is modelled as an association list with
unique keys; `alookup`/`ainsert` below give it the map semantics. -/
inductive VEntry where
  | file (f : VFile)
  | dir (children : List (String × VEntry))
deriving Repr

abbrev Children := List (String × VEntry)

/-- `HashMap::get` on the association-list model. -/
def alookup (entries : Children) (key : String) : Option VEntry :=
  match entries with
  | [] => none
  | (k, v) :: rest => if k = key then some v else alookup rest key

/-- `HashMap::insert` on the association-list model: replace the value of an
existing key, otherwise append the binding. -/
def ainsert (entries : Children) (key : String) (v : VEntry) : Children :=
  match entries with
  | [] => [(key, v)]
  | (k, w) :: rest => if k = key then (k, v) :: rest else (k, w) :: ainsert rest key v

/-- Error tags of `result::Error` (src/src/result.rs) that the claims mention.
Payloads (paths, values, offsets) are dropped: no claim depends on them. -/
inductive VErr where
  | entryNotADir
  | noSuchEntry
  | unsupportedVersion
  | illegalTerminator
  | unexpectedEof
deriving Repr, DecidableEq

/-- Helper of `splitComponents`: `cur` is the reversed run of non-`'/'`
characters read so far. -/
def splitComponentsAux : List Char → List Char → List String
  | [], cur => if cur.isEmpty then [] else [String.mk cur.reverse]
  | c :: rest, cur =>
    if c = '/' then
      if cur.isEmpty then splitComponentsAux rest []
      else String.mk cur.reverse :: splitComponentsAux rest []
    else splitComponentsAux rest (c :: cur)

/-- `split_path` (src/src/vpk/util.rs `PathSplitter`): the maximal runs of
non-`'/'` characters, in order.  Leading, trailing and repeated slashes are
skipped exactly as the iterator does. -/
def splitComponents (cs : List Char) : List String := splitComponentsAux cs []

def splitPath (s : String) : List String := splitComponents s.toList

/-- `Package::get` (src/src/package.rs:432): walk the components; descending
through a file entry, or a missing name, returns `None`. -/
def getEntry (entries : Children) : List String → Option VEntry
  | [] => none
  | [item] => alookup entries item
  | item :: rest =>
    match alookup entries item with
    | some (.dir d) => getEntry d rest
    | _ => none

theorem getEntry_cons₂ (e : Children) (x r : String) (rs : List String) :
    getEntry e (x :: r :: rs) =
      (match alookup e x with
       | some (.dir d) => getEntry d (r :: rs)
       | _ => none) := rfl

def getPath (entries : Children) (path : String) : Option VEntry :=
  getEntry entries (splitPath path)

/-- `mkpath` (src/src/package.rs:84) fused with the caller's subsequent use of
the returned children map: navigate `comps`, creating missing directories, and
apply `k` to the children map at the destination; a file entry met on the way
is `ENTRY_NOT_A_DIR`.  (The partially inserted directories that the Rust
mutation leaves behind on the error path are unobservable: every caller
aborts the whole parse on that error.) -/
def mkpathApply (entries : Children) : List String → (Children → Children) →
    Except VErr Children
  | [], k => .ok (k entries)
  | c :: rest, k =>
    match alookup entries c with
    | some (.file _) => .error .entryNotADir
    | some (.dir d) => (mkpathApply d rest k).map (fun sub => ainsert entries c (.dir sub))
    | none => (mkpathApply [] rest k).map (fun sub => ainsert entries c (.dir sub))

def mkpathStr (entries : Children) (dirpath : String) (k : Children → Children) :
    Except VErr Children :=
  mkpathApply entries (splitPath dirpath) k

/-- The flattening loop `recursive_file_list` (src/src/package.rs:516);
association-list order stands in for the unspecified `HashMap` iteration
order. -/
def recursiveList : Children → String → List (String × VFile)
  | [], _ => []
  | (name, .file f) :: rest, pre => (pre ++ name, f) :: recursiveList rest pre
  | (name, .dir d) :: rest, pre =>
    recursiveList d (pre ++ name ++ "/") ++ recursiveList rest pre

/-- `Package::recursive_file_list_from` (src/src/package.rs:483): resolve each
root; a root that does not resolve is `NO_SUCH_ENTRY`.  The final pluggable
sort is omitted: it permutes the success value only and no claim depends on
it. -/
def recursiveFileListFrom (entries : Children) (paths : List String) :
    Except VErr (List (String × VFile)) :=
  paths.foldlM (fun acc path =>
    match getPath entries path with
    | none => .error .noSuchEntry
    | some (.dir d) => .ok (acc ++ recursiveList d (path ++ "/"))
    | some (.file f) => .ok (acc ++ [(path, f)])) []

theorem mkpathApply_cons (e : Children) (c : String) (rest : List String)
    (k : Children → Children) :
    mkpathApply e (c :: rest) k =
      (match alookup e c with
       | some (.file _) => .error .entryNotADir
       | some (.dir d) => (mkpathApply d rest k).map (fun sub => ainsert e c (.dir sub))
       | none => (mkpathApply [] rest k).map (fun sub => ainsert e c (.dir sub))) := rfl

theorem getEntry_none_of_prefix_file (entries : Children) (comps : List String)
    (i : Nat) (f : VFile) (h0 : 0 < i) (hi : i < comps.length)
    (hf : getEntry entries (comps.take i) = some (.file f)) :
    getEntry entries comps = none := by
  induction comps generalizing entries i with
  | nil => simp at hi
  | cons c rest ih =>
    cases rest with
    | nil =>
      simp only [List.length_cons, List.length_nil] at hi
      omega
    | cons r rs =>
      match i, h0 with
      | 1, _ =>
        have hc : alookup entries c = some (.file f) := by
          simpa [getEntry] using hf
        rw [getEntry_cons₂, hc]
      | (j+2), _ =>
        rw [List.take_succ_cons, List.take_succ_cons] at hf
        rw [getEntry_cons₂] at hf
        rw [getEntry_cons₂]
        cases hl : alookup entries c with
        | none => exact rfl
        | some e =>
          cases e with
          | file g => exact rfl
          | dir d =>
            rw [hl] at hf
            have hf' : getEntry d (r :: List.take j rs) = some (.file f) := hf
            have hlen : j + 1 < (r :: rs).length := by
              simp only [List.length_cons] at hi ⊢
              omega
            have htake : getEntry d ((r :: rs).take (j+1)) = some (.file f) := by
              rw [List.take_succ_cons]; exact hf'
            show getEntry d (r :: rs) = none
            exact ih d (j+1) (by omega) hlen htake

theorem mkpathApply_error_of_prefix_file (entries : Children) (comps : List String)
    (i : Nat) (f : VFile) (h0 : 0 < i) (hi : i ≤ comps.length)
    (hf : getEntry entries (comps.take i) = some (.file f)) (k : Children → Children) :
    mkpathApply entries comps k = .error .entryNotADir := by
  induction comps generalizing entries i with
  | nil =>
    simp only [List.length_nil] at hi
    omega
  | cons c rest ih =>
    match i, h0 with
    | 1, _ =>
      have hc : alookup entries c = some (.file f) := by
        cases rest with
        | nil => simpa [getEntry] using hf
        | cons r rs => simpa [getEntry] using hf
      rw [mkpathApply_cons, hc]
    | (j+2), _ =>
      have hrest : j + 1 ≤ rest.length := by
        simp only [List.length_cons] at hi
        omega
      cases rest with
      | nil => simp at hrest
      | cons r rs =>
        rw [List.take_succ_cons, List.take_succ_cons] at hf
        rw [getEntry_cons₂] at hf
        rw [mkpathApply_cons]
        cases hl : alookup entries c with
        | none => rw [hl] at hf; exact Option.noConfusion hf
        | some e =>
          cases e with
          | file g => exact rfl
          | dir d =>
            rw [hl] at hf
            have hf' : getEntry d (r :: List.take j rs) = some (.file f) := hf
            have hrec := ih d (j+1) (by omega) (by simpa using hrest)
              (by rw [List.take_succ_cons]; exact hf')
            show (mkpathApply d (r :: rs) k).map (fun sub => ainsert entries c (.dir sub)) =
              .error .entryNotADir
            rw [hrec]
            rfl

def c7file : VFile := ⟨0, 0, 0, DIR_INDEX, 0, 0, []⟩

def c7entries : Children := [("a.txt", .file c7file)]

/-- C7 counterexample: resolving `"a.txt/b"` in a model where `"a.txt"` is a
file yields `None` — surfaced by `recursive_file_list_from` as
`NO_SUCH_ENTRY` — not `ENTRY_NOT_A_DIR` as the claim states. -/
theorem c7_resolution_not_entry_not_a_dir :
    getPath c7entries "a.txt/b" = none ∧
    recursiveFileListFrom c7entries ["a.txt/b"] = .error .noSuchEntry ∧
    VErr.noSuchEntry ≠ VErr.entryNotADir := by
  refine ⟨rfl, rfl, by decide⟩

/-- C7 amended: if a proper prefix of a path resolves to a file entry, lookup
(`Package::get`) returns `None` and `recursive_file_list_from` reports
`NO_SUCH_ENTRY`; placing a directory at such a path (`mkpath`) is rejected
with `ENTRY_NOT_A_DIR`. -/
theorem c7_prefix_file_lookup_and_mkpath (entries : Children) (path : String)
    (i : Nat) (f : VFile) (h0 : 0 < i) (hi : i < (splitPath path).length)
    (hf : getEntry entries ((splitPath path).take i) = some (.file f)) :
    getPath entries path = none ∧
    recursiveFileListFrom entries [path] = .error .noSuchEntry ∧
    ∀ k, mkpathStr entries path k = .error .entryNotADir := by
  have hget : getEntry entries (splitPath path) = none :=
    getEntry_none_of_prefix_file entries _ i f h0 hi hf
  refine ⟨hget, ?_, ?_⟩
  · simp [recursiveFileListFrom, getPath, hget]
  · intro k
    exact mkpathApply_error_of_prefix_file entries _ i f h0 (le_of_lt hi) hf k

/-- C7 witness: the amended theorem applied at a concrete model. -/
theorem c7_prefix_file_lookup_and_mkpath_witness :
    getPath c7entries "a.txt/b" = none ∧
    recursiveFileListFrom c7entries ["a.txt/b"] = .error .noSuchEntry ∧
    ∀ k, mkpathStr c7entries "a.txt/b" k = .error .entryNotADir :=
  c7_prefix_file_lookup_and_mkpath c7entries "a.txt/b" 1 c7file
    (by decide) (by decide) (by rfl)

/-! ### C3: header version dispatch -/

structure HeaderInfo where
  header_size : Nat
  data_start : Nat
  index_size : Nat
deriving Repr, DecidableEq

/-- Modelled from the spec: the version dispatch of the package reader with
the collaborator's "allow-v0" flag.  The flag-aware `Package::from_file` is
absent from src — src/src/main.rs:318 calls the two-argument
`Package::from_path(path, allow_v0)`, while src/src/package.rs:132 defines a
one-argument `from_path` whose `from_file` rejects version 0 unconditionally —
so this follows §4.D step 2 of the spec: version `0` fails unless allow-v0
was requested (then the header is zero bytes, data starts at 0 and the index
size is the file size); versions above 2 are `UNSUPPORTED_VERSION`; versions
1 and 2 are accepted with their fixed header sizes (12 and 28). -/
def readVersionDispatch (allowV0 : Bool) (version fileSize indexSizeField : Nat) :
    Except VErr HeaderInfo :=
  if version = 0 then
    if allowV0 then .ok ⟨0, 0, fileSize⟩ else .error .unsupportedVersion
  else if 2 < version then .error .unsupportedVersion
  else if version = 1 then .ok ⟨12, 12 + indexSizeField, indexSizeField⟩
  else .ok ⟨28, 28 + indexSizeField, indexSizeField⟩

/-- C3: version 0 fails unless allow-v0 was requested (in which case the
header is zero bytes, data starts at 0 and the index size is the file size);
versions above 2 fail with `UNSUPPORTED_VERSION`; versions 1 and 2 are
accepted. -/
theorem version_dispatch_cases (allowV0 : Bool) (version fileSize sz : Nat) :
    (version = 0 → allowV0 = false →
      readVersionDispatch allowV0 version fileSize sz = .error .unsupportedVersion) ∧
    (version = 0 → allowV0 = true →
      readVersionDispatch allowV0 version fileSize sz = .ok ⟨0, 0, fileSize⟩) ∧
    (2 < version →
      readVersionDispatch allowV0 version fileSize sz = .error .unsupportedVersion) ∧
    (version = 1 →
      readVersionDispatch allowV0 version fileSize sz = .ok ⟨12, 12 + sz, sz⟩) ∧
    (version = 2 →
      readVersionDispatch allowV0 version fileSize sz = .ok ⟨28, 28 + sz, sz⟩) := by
  refine ⟨?_, ?_, ?_, ?_, ?_⟩ <;> intro h
  · intro ha; subst h; subst ha; simp [readVersionDispatch]
  · intro ha; subst h; subst ha; simp [readVersionDispatch]
  · have h0 : version ≠ 0 := by omega
    simp [readVersionDispatch, h0, h]
  · subst h; simp [readVersionDispatch]
  · subst h; simp [readVersionDispatch]

/-- C3 witness: the dispatch evaluated at the version-0, allow-v0 corner. -/
theorem version_dispatch_cases_witness :
    readVersionDispatch true 0 5 7 = .ok ⟨0, 0, 5⟩ :=
  (version_dispatch_cases true 0 5 7).2.1 rfl rfl

/-! ### C10 / C2: the file-record codec of src/src/io.rs -/

/-- Release-mode `u32` wrapping subtraction, for `a < 2^32`. -/
def wrapSub32 (a b : Nat) : Nat := (a + 2 ^ 32 - b % 2 ^ 32) % 2 ^ 32

/-- The offset field emitted by `write_file` (src/src/io.rs:92): subtract
`dir_size` only for `DIR_INDEX` entries with a nonzero offset. -/
def write_file_offset_field (e : VFile) (dir_size : Nat) : Nat :=
  if e.archive_index = DIR_INDEX ∧ e.offset ≠ 0 then wrapSub32 e.offset dir_size
  else e.offset

/-- C10: for entries whose offset is 0 or at least `dir_size`, the `u32`
subtraction in `write_file` cannot underflow (the emitted field is the exact
difference), and a fully inlined entry (size 0, offset 0) is emitted with
on-disk offset 0. -/
theorem write_file_offset_no_underflow (e : VFile) (d : Nat)
    (he : e.offset < 2 ^ 32) (hd : d < 2 ^ 32)
    (h : e.offset = 0 ∨ d ≤ e.offset) :
    write_file_offset_field e d =
      (if e.archive_index = DIR_INDEX ∧ e.offset ≠ 0 then e.offset - d else e.offset) ∧
    (e.size = 0 → e.offset = 0 → write_file_offset_field e d = 0) := by
  constructor
  · by_cases hc : e.archive_index = DIR_INDEX ∧ e.offset ≠ 0
    · have hdo : d ≤ e.offset := by
        rcases h with h | h
        · exact absurd h hc.2
        · exact h
      simp only [write_file_offset_field, wrapSub32, if_pos hc]
      have hdm : d % 2 ^ 32 = d := Nat.mod_eq_of_lt hd
      rw [hdm]
      omega
    · simp [write_file_offset_field, hc]
  · intro _ hz
    have hc : ¬(e.archive_index = DIR_INDEX ∧ e.offset ≠ 0) := by
      intro hcc; exact hcc.2 hz
    simp [write_file_offset_field, hc, hz]

def c10file : VFile := ⟨0, 0, 5, DIR_INDEX, 100, 7, []⟩

/-- C10 witness: the theorem applied at a concrete `DIR_INDEX` entry. -/
theorem write_file_offset_no_underflow_witness :
    write_file_offset_field c10file 12 =
      (if c10file.archive_index = DIR_INDEX ∧ c10file.offset ≠ 0
       then c10file.offset - 12 else c10file.offset) ∧
    (c10file.size = 0 → c10file.offset = 0 → write_file_offset_field c10file 12 = 0) :=
  write_file_offset_no_underflow c10file 12 (by decide) (by decide) (Or.inr (by decide))

/-- Little-endian `u16` from two bytes: `(b1 << 8) | b0` of `read_u16`
(src/src/io.rs:8); for byte values the bitwise or of disjoint shifts is
addition. -/
def leU16 (b0 b1 : Nat) : Nat := b1 * 256 + b0

/-- Little-endian `u32` from four bytes, as in `read_u32` (src/src/io.rs:16). -/
def leU32 (b0 b1 b2 b3 : Nat) : Nat := ((b3 * 256 + b2) * 256 + b1) * 256 + b0

def read_u16 (bs : List Nat) : Option (Nat × List Nat) :=
  match bs with
  | b0 :: b1 :: rest => some (leU16 b0 b1, rest)
  | _ => none

def read_u32 (bs : List Nat) : Option (Nat × List Nat) :=
  match bs with
  | b0 :: b1 :: b2 :: b3 :: rest => some (leU32 b0 b1 b2 b3, rest)
  | _ => none

def ofOpt {α : Type} (o : Option α) : Except VErr α :=
  match o with
  | some a => .ok a
  | none => .error .unexpectedEof

/-- `read_file` (src/src/io.rs:35): read the fixed record, normalize the
offset of `DIR_INDEX` entries by `data_offset` (u32 wrapping addition), check
the terminator, read the preload. -/
def read_file (bs : List Nat) (index data_offset : Nat) :
    Except VErr (VFile × List Nat) := do
  let (crc32, bs) ← ofOpt (read_u32 bs)
  let (inline_size, bs) ← ofOpt (read_u16 bs)
  let (archive_index, bs) ← ofOpt (read_u16 bs)
  let (offset0, bs) ← ofOpt (read_u32 bs)
  let (size, bs) ← ofOpt (read_u32 bs)
  let (terminator, bs) ← ofOpt (read_u16 bs)
  let offset := if archive_index = DIR_INDEX then (offset0 + data_offset) % 2 ^ 32 else offset0
  if terminator ≠ TERMINATOR then .error .illegalTerminator
  else if inline_size ≤ bs.length then
    .ok (⟨index, crc32, inline_size, archive_index, offset, size, bs.take inline_size⟩,
      bs.drop inline_size)
  else .error .unexpectedEof

def write_u16 (v : Nat) : List Nat := [v % 256, v / 256 % 256]

def write_u32 (v : Nat) : List Nat :=
  [v % 256, v / 256 % 256, v / 2 ^ 16 % 256, v / 2 ^ 24 % 256]

/-- `write_file` (src/src/io.rs:88). -/
def write_file (e : VFile) (dir_size : Nat) : List Nat :=
  write_u32 e.crc32 ++ write_u16 e.inline_size ++ write_u16 e.archive_index ++
  write_u32 (write_file_offset_field e dir_size) ++ write_u32 e.size ++
  write_u16 TERMINATOR ++ e.preload

/-- The on-disk little-endian `u32` at byte offset `i` of a record. -/
def leU32At (bs : List Nat) (i : Nat) : Nat :=
  leU32 (bs.getD i 0) (bs.getD (i+1) 0) (bs.getD (i+2) 0) (bs.getD (i+3) 0)

def leU16At (bs : List Nat) (i : Nat) : Nat :=
  leU16 (bs.getD i 0) (bs.getD (i+1) 0)

theorem write_u16_leU16 (b0 b1 : Nat) (h0 : b0 < 256) (h1 : b1 < 256) :
    write_u16 (leU16 b0 b1) = [b0, b1] := by
  simp only [write_u16, leU16, List.cons.injEq, and_true]
  exact ⟨by omega, by omega⟩

theorem write_u32_leU32 (b0 b1 b2 b3 : Nat)
    (h0 : b0 < 256) (h1 : b1 < 256) (h2 : b2 < 256) (h3 : b3 < 256) :
    write_u32 (leU32 b0 b1 b2 b3) = [b0, b1, b2, b3] := by
  simp only [write_u32, leU32, List.cons.injEq, and_true]
  refine ⟨by omega, by omega, by omega, by omega⟩

def c2bytes : List Nat :=
  [0, 0, 0, 0,
   0, 0,
   0xFF, 0x7F,
   0, 0, 0, 0x80,
   0, 0, 0, 0,
   0xFF, 0xFF]

def c2file : VFile := ⟨0, 0, 0, DIR_INDEX, 0, 0, []⟩

/-- C2 counterexample: a `DIR_INDEX` record with on-disk offset `2^31` read
with `data_offset = 2^31` normalizes (with u32 wrap) to in-memory offset 0,
which `write_file` re-emits as 0, not the original on-disk offset: the
write-after-read does not reproduce the input bytes, and the in-memory offset
is not the mathematical sum of the on-disk offset and `data_offset`. -/
theorem read_write_file_wrap_counterexample :
    read_file c2bytes 0 (2 ^ 31) = .ok (c2file, []) ∧
    write_file c2file (2 ^ 31) ≠ c2bytes ∧
    c2file.offset ≠ leU32At c2bytes 8 + 2 ^ 31 := by
  refine ⟨by rfl, by decide, by decide⟩

/-- C2 amended: for every well-formed record whose on-disk offset plus
`data_offset` does not exceed the `u32` range, `read_file` yields an
in-memory offset equal to the on-disk offset plus `data_offset` (for
`DIR_INDEX` entries), and `write_file` with the same `dir_size` reproduces
the input bytes exactly. -/
theorem read_write_file_roundtrip (bs : List Nat) (idx d : Nat) (f : VFile)
    (rest : List Nat) (hb : ∀ b ∈ bs, b < 256)
    (hok : read_file bs idx d = .ok (f, rest))
    (hnw : leU16At bs 6 = DIR_INDEX → leU32At bs 8 + d < 2 ^ 32) :
    (f.archive_index = DIR_INDEX → f.offset = leU32At bs 8 + d) ∧
    write_file f d ++ rest = bs := by
  rcases bs with _ | ⟨b0, _ | ⟨b1, _ | ⟨b2, _ | ⟨b3, _ | ⟨b4, _ | ⟨b5, _ | ⟨b6,
    _ | ⟨b7, _ | ⟨b8, _ | ⟨b9, _ | ⟨b10, _ | ⟨b11, _ | ⟨b12, _ | ⟨b13,
    _ | ⟨b14, _ | ⟨b15, _ | ⟨b16, _ | ⟨b17, tail⟩⟩⟩⟩⟩⟩⟩⟩⟩⟩⟩⟩⟩⟩⟩⟩⟩⟩ <;>
    first
      | exact Except.noConfusion hok
      | skip
  simp only [read_file, read_u32, read_u16, ofOpt, bind, Except.bind] at hok
  by_cases hterm : leU16 b16 b17 ≠ TERMINATOR
  · rw [if_pos hterm] at hok
    exact absurd hok (by simp)
  rw [if_neg hterm] at hok
  push_neg at hterm
  by_cases hlen : leU16 b4 b5 ≤ tail.length
  swap
  · rw [if_neg hlen] at hok
    exact absurd hok (by simp)
  rw [if_pos hlen] at hok
  obtain ⟨hfv, hrest⟩ : (⟨idx, leU32 b0 b1 b2 b3, leU16 b4 b5, leU16 b6 b7,
      (if leU16 b6 b7 = DIR_INDEX then (leU32 b8 b9 b10 b11 + d) % 2 ^ 32
       else leU32 b8 b9 b10 b11), leU32 b12 b13 b14 b15,
      tail.take (leU16 b4 b5)⟩ : VFile) = f ∧
      tail.drop (leU16 b4 b5) = rest := by
    simpa using hok
  subst hfv
  subst hrest
  have h0 : b0 < 256 := hb b0 (by simp)
  have h1 : b1 < 256 := hb b1 (by simp)
  have h2 : b2 < 256 := hb b2 (by simp)
  have h3 : b3 < 256 := hb b3 (by simp)
  have h4 : b4 < 256 := hb b4 (by simp)
  have h5 : b5 < 256 := hb b5 (by simp)
  have h6 : b6 < 256 := hb b6 (by simp)
  have h7 : b7 < 256 := hb b7 (by simp)
  have h8 : b8 < 256 := hb b8 (by simp)
  have h9 : b9 < 256 := hb b9 (by simp)
  have h10 : b10 < 256 := hb b10 (by simp)
  have h11 : b11 < 256 := hb b11 (by simp)
  have h12 : b12 < 256 := hb b12 (by simp)
  have h13 : b13 < 256 := hb b13 (by simp)
  have h14 : b14 < 256 := hb b14 (by simp)
  have h15 : b15 < 256 := hb b15 (by simp)
  have h16 : b16 < 256 := hb b16 (by simp)
  have h17 : b17 < 256 := hb b17 (by simp)
  have hat16 : leU16At (b0 :: b1 :: b2 :: b3 :: b4 :: b5 :: b6 :: b7 :: b8 :: b9 ::
      b10 :: b11 :: b12 :: b13 :: b14 :: b15 :: b16 :: b17 :: tail) 6 = leU16 b6 b7 := rfl
  have hat32 : leU32At (b0 :: b1 :: b2 :: b3 :: b4 :: b5 :: b6 :: b7 :: b8 :: b9 ::
      b10 :: b11 :: b12 :: b13 :: b14 :: b15 :: b16 :: b17 :: tail) 8 =
      leU32 b8 b9 b10 b11 := rfl
  rw [hat16] at hnw
  rw [hat32] at hnw ⊢
  have hoff : write_file_offset_field (⟨idx, leU32 b0 b1 b2 b3, leU16 b4 b5,
      leU16 b6 b7,
      (if leU16 b6 b7 = DIR_INDEX then (leU32 b8 b9 b10 b11 + d) % 2 ^ 32
       else leU32 b8 b9 b10 b11), leU32 b12 b13 b14 b15,
      tail.take (leU16 b4 b5)⟩ : VFile) d = leU32 b8 b9 b10 b11 := by
    by_cases hdir : leU16 b6 b7 = DIR_INDEX
    · have hlt := hnw hdir
      have hoffv : (if leU16 b6 b7 = DIR_INDEX then (leU32 b8 b9 b10 b11 + d) % 2 ^ 32
          else leU32 b8 b9 b10 b11) = leU32 b8 b9 b10 b11 + d := by
        rw [if_pos hdir, Nat.mod_eq_of_lt hlt]
      simp only [write_file_offset_field, wrapSub32]
      rw [hoffv]
      by_cases hz : leU32 b8 b9 b10 b11 + d = 0
      · rw [if_neg (fun hc => hc.2 hz)]
        omega
      · rw [if_pos ⟨hdir, hz⟩]
        have hdlt : d < 2 ^ 32 := by omega
        rw [Nat.mod_eq_of_lt hdlt]
        omega
    · simp only [write_file_offset_field]
      rw [if_neg (fun hc => hdir hc.1), if_neg hdir]
  constructor
  · intro hdir
    have hdir' : leU16 b6 b7 = DIR_INDEX := hdir
    show (if leU16 b6 b7 = DIR_INDEX then (leU32 b8 b9 b10 b11 + d) % 2 ^ 32
      else leU32 b8 b9 b10 b11) = leU32 b8 b9 b10 b11 + d
    rw [if_pos hdir']
    exact Nat.mod_eq_of_lt (hnw hdir')
  · simp only [write_file]
    rw [hoff]
    rw [write_u32_leU32 b0 b1 b2 b3 h0 h1 h2 h3,
      write_u16_leU16 b4 b5 h4 h5,
      write_u16_leU16 b6 b7 h6 h7,
      write_u32_leU32 b8 b9 b10 b11 h8 h9 h10 h11,
      write_u32_leU32 b12 b13 b14 b15 h12 h13 h14 h15]
    have hterm' : write_u16 TERMINATOR = [b16, b17] := by
      have h1617 : b17 * 256 + b16 = 65535 := hterm
      simp only [write_u16, TERMINATOR, List.cons.injEq, and_true]
      exact ⟨by omega, by omega⟩
    rw [hterm']
    simp [List.take_append_drop]

def c2wbytes : List Nat :=
  [1, 0, 0, 0,
   1, 0,
   0xFF, 0x7F,
   4, 0, 0, 0,
   2, 0, 0, 0,
   0xFF, 0xFF,
   9]

def c2wfile : VFile := ⟨0, 1, 1, DIR_INDEX, 14, 2, [9]⟩

/-- C2 witness: the amended round trip at a concrete `DIR_INDEX` record with
`data_offset = 10`. -/
theorem read_write_file_roundtrip_witness :
    (c2wfile.archive_index = DIR_INDEX → c2wfile.offset = leU32At c2wbytes 8 + 10) ∧
    write_file c2wfile 10 ++ [] = c2wbytes := by
  have h : read_file c2wbytes 0 10 = .ok (c2wfile, []) := by rfl
  exact read_write_file_roundtrip c2wbytes 0 10 c2wfile [] (by decide) h
    (by intro _h; decide)

/-! ### C1: the FUSE read callback of src/src/mount.rs -/

/-- `read_exact_at` on an archive modelled as its full byte list: read `len`
bytes at `pos`, failing (the errno reply) if the range is unavailable. -/
def readExactAt (archive : List Nat) (len pos : Nat) : Option (List Nat) :=
  if pos + len ≤ archive.length then some ((archive.drop pos).take len) else none

/-- `VPKFS::read` (src/src/mount.rs:446): the FUSE read callback, for a file
entry whose archive bytes are `archive`.  `offset` and `size` are the request
window.  The archive read position in the straddling branch is the code's
`file.offset as u64 + offset - inline_size` (mount.rs:476). -/
def vpkfsRead (archive : List Nat) (f : VFile) (offset size : Nat) :
    Option (List Nat) :=
  if offset < f.inline_size then
    if offset + size ≤ f.inline_size then
      some ((f.preload.drop offset).take size)
    else if f.size = 0 then
      some (f.preload.drop offset)
    else
      let body_size := min (offset + size - f.inline_size) f.size
      (readExactAt archive body_size (f.offset + offset - f.inline_size)).map
        (fun tail => f.preload.drop offset ++ tail)
  else
    let offset2 := offset - f.inline_size
    if f.size ≤ offset2 then some []
    else readExactAt archive (min size (f.size - offset2)) (f.offset + offset2)

/-- The read-range façade as §4.H of the spec states it: the request window
`[o, o+n)` clipped to `[0, P+S)`, served from the preload concatenated with
the entry's archive range. -/
def specReadRange (archive : List Nat) (f : VFile) (o n : Nat) : List Nat :=
  let payload := f.preload ++ (archive.drop f.offset).take f.size
  (payload.drop o).take (min (o + n) (f.inline_size + f.size) - o)

def c1archive : List Nat := (List.range 20).map (fun i => 100 + i)

def c1file : VFile := ⟨0, 0, 4, 0, 10, 4, [1, 2, 3, 4]⟩

/-- C1: at a request window starting inside the preload and extending past
it (`P = 4`, `S = 4`, `entry.offset = 10`, window `[2, 8)`), the mount read
returns archive bytes starting at `entry.offset + o - P = 8` instead of
`entry.offset = 10` as the claim (and §4.H) requires: the code diverges from
the specified read-range semantics. -/
theorem vpkfs_read_straddle_diverges :
    vpkfsRead c1archive c1file 2 6 = some [3, 4, 108, 109, 110, 111] ∧
    specReadRange c1archive c1file 2 6 = [3, 4, 110, 111, 112, 113] ∧
    vpkfsRead c1archive c1file 2 6 ≠ some (specReadRange c1archive c1file 2 6) := by
  refine ⟨by decide, by decide, by decide⟩

/-! ### C9: `parse_size` of src/src/vpk/util.rs -/

/-- `str::trim_start` on the character list. -/
def trimLeft (l : List Char) : List Char := l.dropWhile Char.isWhitespace

/-- `str::trim_end` on the character list. -/
def trimRight (l : List Char) : List Char :=
  (l.reverse.dropWhile Char.isWhitespace).reverse

/-- `str::trim` on the character list. -/
def trimChars (l : List Char) : List Char := trimRight (trimLeft l)

/-- `str::ends_with(char)` on the character list. -/
def endsWithChar (l : List Char) (c : Char) : Bool :=
  match l.reverse with
  | [] => false
  | x :: _ => x = c

def foldDigits (l : List Char) : Nat :=
  l.foldl (fun a c => a * 10 + (c.toNat - 48)) 0

/-- `str::parse::<usize>()` on a 64-bit target: an optional leading `+`, then
one or more decimal digits whose value fits `u64`; anything else is an
error. -/
def rustParseUsize (l : List Char) : Option Nat :=
  let t := if l.head? = some '+' then l.tail else l
  if t.isEmpty then none
  else if t.all Char.isDigit then
    if foldDigits t < 2 ^ 64 then some (foldDigits t) else none
  else none

/-- `parse_size` (src/src/vpk/util.rs:196): strip a trailing `B`, then map a
trailing `K`/`M`/`G`/`T`/`P`/`E`/`Z`/`Y` to the matching power of 1024
(release-mode `usize` multiplication wraps, and the successive `* 1024`
steps wrap to the same residue as a single `% 2^64`), else parse the bare
integer. -/
def parse_size (l : List Char) : Option Nat :=
  let v := trimChars l
  let v := if endsWithChar v 'B' then v.dropLast else v
  if endsWithChar v 'K' then
    (rustParseUsize (trimRight v.dropLast)).map (fun n => n * 1024 ^ 1 % 2 ^ 64)
  else if endsWithChar v 'M' then
    (rustParseUsize (trimRight v.dropLast)).map (fun n => n * 1024 ^ 2 % 2 ^ 64)
  else if endsWithChar v 'G' then
    (rustParseUsize (trimRight v.dropLast)).map (fun n => n * 1024 ^ 3 % 2 ^ 64)
  else if endsWithChar v 'T' then
    (rustParseUsize (trimRight v.dropLast)).map (fun n => n * 1024 ^ 4 % 2 ^ 64)
  else if endsWithChar v 'P' then
    (rustParseUsize (trimRight v.dropLast)).map (fun n => n * 1024 ^ 5 % 2 ^ 64)
  else if endsWithChar v 'E' then
    (rustParseUsize (trimRight v.dropLast)).map (fun n => n * 1024 ^ 6 % 2 ^ 64)
  else if endsWithChar v 'Z' then
    (rustParseUsize (trimRight v.dropLast)).map (fun n => n * 1024 ^ 7 % 2 ^ 64)
  else if endsWithChar v 'Y' then
    (rustParseUsize (trimRight v.dropLast)).map (fun n => n * 1024 ^ 8 % 2 ^ 64)
  else rustParseUsize v

theorem dropWhile_eq_self_of_none {p : Char → Bool} (l : List Char)
    (h : ∀ x ∈ l, p x = false) : l.dropWhile p = l := by
  cases l with
  | nil => rfl
  | cons c rest =>
    rw [List.dropWhile_cons, if_neg]
    rw [h c (by simp)]
    simp

theorem trimRight_eq_self (l : List Char)
    (h : ∀ x ∈ l, x.isWhitespace = false) : trimRight l = l := by
  unfold trimRight
  rw [dropWhile_eq_self_of_none _ (fun x hx => h x (List.mem_reverse.mp hx))]
  exact List.reverse_reverse l

theorem trimChars_eq_self (l : List Char)
    (h : ∀ x ∈ l, x.isWhitespace = false) : trimChars l = l := by
  unfold trimChars trimLeft
  rw [dropWhile_eq_self_of_none _ h]
  exact trimRight_eq_self l h

theorem endsWithChar_concat (l : List Char) (a x : Char) :
    endsWithChar (l ++ [a]) x = decide (a = x) := by
  unfold endsWithChar
  rw [List.reverse_append]
  rfl

theorem digit_not_ws (c : Char) (h : c.isDigit = true) :
    c.isWhitespace = false := by
  cases hw : c.isWhitespace with
  | false => rfl
  | true =>
    exfalso
    simp only [Char.isWhitespace, Bool.or_eq_true, decide_eq_true_eq] at hw
    rcases hw with ((h1 | h1) | h1) | h1 <;> (subst h1; exact absurd h (by decide))

theorem digit_ne (c x : Char) (h : c.isDigit = true) (hx : x.isDigit = false) :
    c ≠ x := by
  intro he
  subst he
  rw [h] at hx
  exact Bool.noConfusion hx

theorem endsWithChar_digits (s : List Char) (hd : s.all Char.isDigit = true)
    (x : Char) (hx : x.isDigit = false) : endsWithChar s x = false := by
  unfold endsWithChar
  cases hr : s.reverse with
  | nil => rfl
  | cons y ys =>
    have hy : y ∈ s := by
      rw [← List.mem_reverse, hr]
      simp
    have hyd : y.isDigit = true := by
      rw [List.all_eq_true] at hd
      exact hd y hy
    simp [digit_ne y x hyd hx]

theorem rustParseUsize_digits (s : List Char) (hne : s ≠ [])
    (hd : s.all Char.isDigit = true) (hlt : foldDigits s < 2 ^ 64) :
    rustParseUsize s = some (foldDigits s) := by
  cases s with
  | nil => exact absurd rfl hne
  | cons c rest =>
    have hcd : c.isDigit = true := by
      rw [List.all_eq_true] at hd
      exact hd c (by simp)
    have hhead : ¬((c :: rest).head? = some '+') := by
      simp only [List.head?_cons, Option.some.injEq]
      exact digit_ne c '+' hcd (by decide)
    unfold rustParseUsize
    rw [if_neg hhead]
    simp only [List.isEmpty_cons, hd, if_pos hlt]
    rw [if_neg (by simp)]
    simp [hlt]

/-- C9: `parse_size` of an integer literal followed by one of the size
suffixes `B K M G T P E Z Y` is the literal value times the matching power
of 1024 whenever the product fits `usize`, and a bare integer parses to its
own value. -/
theorem parse_size_pow1024 (s : List Char) (n k : Nat) (c : Char)
    (hne : s ≠ []) (hd : s.all Char.isDigit = true)
    (hn : foldDigits s = n) (hn64 : n < 2 ^ 64)
    (hc : (c, k) ∈ [('B', 0), ('K', 1), ('M', 2), ('G', 3), ('T', 4), ('P', 5),
      ('E', 6), ('Z', 7), ('Y', 8)])
    (hfit : n * 1024 ^ k < 2 ^ 64) :
    parse_size (s ++ [c]) = some (n * 1024 ^ k) ∧ parse_size s = some n := by
  have hdig : ∀ x ∈ s, x.isDigit = true := by
    rw [List.all_eq_true] at hd
    exact hd
  have hnws : ∀ x ∈ s, x.isWhitespace = false :=
    fun x hx => digit_not_ws x (hdig x hx)
  have htrim : trimChars s = s := trimChars_eq_self s hnws
  have htrimR : trimRight s = s := trimRight_eq_self s hnws
  have hlast : ∀ x : Char, x.isDigit = false → endsWithChar s x = false :=
    fun x hx => endsWithChar_digits s hd x hx
  have hparse : rustParseUsize s = some n := by
    rw [rustParseUsize_digits s hne hd (by rw [hn]; exact hn64), hn]
  have hbare : parse_size s = some n := by
    have eB := hlast 'B' (by decide)
    have eK := hlast 'K' (by decide)
    have eM := hlast 'M' (by decide)
    have eG := hlast 'G' (by decide)
    have eT := hlast 'T' (by decide)
    have eP := hlast 'P' (by decide)
    have eE := hlast 'E' (by decide)
    have eZ := hlast 'Z' (by decide)
    have eY := hlast 'Y' (by decide)
    simp only [parse_size, htrim, eB, eK, eM, eG, eT, eP, eE, eZ, eY,
      Bool.false_eq_true, if_false]
    exact hparse
  have htrimc : ∀ x : Char, x.isWhitespace = false →
      trimChars (s ++ [x]) = s ++ [x] := by
    intro x hx
    refine trimChars_eq_self _ ?_
    intro y hy
    rcases List.mem_append.mp hy with h | h
    · exact hnws y h
    · simp only [List.mem_singleton] at h
      rw [h]
      exact hx
  have eK := hlast 'K' (by decide)
  have eM := hlast 'M' (by decide)
  have eG := hlast 'G' (by decide)
  have eT := hlast 'T' (by decide)
  have eP := hlast 'P' (by decide)
  have eE := hlast 'E' (by decide)
  have eZ := hlast 'Z' (by decide)
  have eY := hlast 'Y' (by decide)
  refine ⟨?_, hbare⟩
  simp only [List.mem_cons, List.not_mem_nil, or_false, Prod.mk.injEq] at hc
  rcases hc with hcase | hcase | hcase | hcase | hcase | hcase | hcase | hcase |
    hcase <;> obtain ⟨rfl, rfl⟩ := hcase
  · have h1 := htrimc 'B' (by decide)
    have gB : endsWithChar (s ++ ['B']) 'B' = true := by
      rw [endsWithChar_concat]
      decide
    simp only [parse_size, h1, gB, eq_self_iff_true, if_true,
      List.dropLast_concat, eK, eM, eG, eT, eP, eE, eZ, eY,
      Bool.false_eq_true, if_false, hparse]
    norm_num
  · have h1 := htrimc 'K' (by decide)
    have gB : endsWithChar (s ++ ['K']) 'B' = false := by
      rw [endsWithChar_concat]
      decide
    have gK : endsWithChar (s ++ ['K']) 'K' = true := by
      rw [endsWithChar_concat]
      decide
    simp only [parse_size, h1, gB, gK,
      Bool.false_eq_true, if_false, eq_self_iff_true, if_true,
      List.dropLast_concat, htrimR, hparse]
    simp only [Option.map]
    rw [Nat.mod_eq_of_lt hfit]
  · have h1 := htrimc 'M' (by decide)
    have gB : endsWithChar (s ++ ['M']) 'B' = false := by
      rw [endsWithChar_concat]
      decide
    have gK : endsWithChar (s ++ ['M']) 'K' = false := by
      rw [endsWithChar_concat]
      decide
    have gM : endsWithChar (s ++ ['M']) 'M' = true := by
      rw [endsWithChar_concat]
      decide
    simp only [parse_size, h1, gB, gK, gM,
      Bool.false_eq_true, if_false, eq_self_iff_true, if_true,
      List.dropLast_concat, htrimR, hparse]
    simp only [Option.map]
    rw [Nat.mod_eq_of_lt hfit]
  · have h1 := htrimc 'G' (by decide)
    have gB : endsWithChar (s ++ ['G']) 'B' = false := by
      rw [endsWithChar_concat]
      decide
    have gK : endsWithChar (s ++ ['G']) 'K' = false := by
      rw [endsWithChar_concat]
      decide
    have gM : endsWithChar (s ++ ['G']) 'M' = false := by
      rw [endsWithChar_concat]
      decide
    have gG : endsWithChar (s ++ ['G']) 'G' = true := by
      rw [endsWithChar_concat]
      decide
    simp only [parse_size, h1, gB, gK, gM, gG,
      Bool.false_eq_true, if_false, eq_self_iff_true, if_true,
      List.dropLast_concat, htrimR, hparse]
    simp only [Option.map]
    rw [Nat.mod_eq_of_lt hfit]
  · have h1 := htrimc 'T' (by decide)
    have gB : endsWithChar (s ++ ['T']) 'B' = false := by
      rw [endsWithChar_concat]
      decide
    have gK : endsWithChar (s ++ ['T']) 'K' = false := by
      rw [endsWithChar_concat]
      decide
    have gM : endsWithChar (s ++ ['T']) 'M' = false := by
      rw [endsWithChar_concat]
      decide
    have gG : endsWithChar (s ++ ['T']) 'G' = false := by
      rw [endsWithChar_concat]
      decide
    have gT : endsWithChar (s ++ ['T']) 'T' = true := by
      rw [endsWithChar_concat]
      decide
    simp only [parse_size, h1, gB, gK, gM, gG, gT,
      Bool.false_eq_true, if_false, eq_self_iff_true, if_true,
      List.dropLast_concat, htrimR, hparse]
    simp only [Option.map]
    rw [Nat.mod_eq_of_lt hfit]
  · have h1 := htrimc 'P' (by decide)
    have gB : endsWithChar (s ++ ['P']) 'B' = false := by
      rw [endsWithChar_concat]
      decide
    have gK : endsWithChar (s ++ ['P']) 'K' = false := by
      rw [endsWithChar_concat]
      decide
    have gM : endsWithChar (s ++ ['P']) 'M' = false := by
      rw [endsWithChar_concat]
      decide
    have gG : endsWithChar (s ++ ['P']) 'G' = false := by
      rw [endsWithChar_concat]
      decide
    have gT : endsWithChar (s ++ ['P']) 'T' = false := by
      rw [endsWithChar_concat]
      decide
    have gP : endsWithChar (s ++ ['P']) 'P' = true := by
      rw [endsWithChar_concat]
      decide
    simp only [parse_size, h1, gB, gK, gM, gG, gT, gP,
      Bool.false_eq_true, if_false, eq_self_iff_true, if_true,
      List.dropLast_concat, htrimR, hparse]
    simp only [Option.map]
    rw [Nat.mod_eq_of_lt hfit]
  · have h1 := htrimc 'E' (by decide)
    have gB : endsWithChar (s ++ ['E']) 'B' = false := by
      rw [endsWithChar_concat]
      decide
    have gK : endsWithChar (s ++ ['E']) 'K' = false := by
      rw [endsWithChar_concat]
      decide
    have gM : endsWithChar (s ++ ['E']) 'M' = false := by
      rw [endsWithChar_concat]
      decide
    have gG : endsWithChar (s ++ ['E']) 'G' = false := by
      rw [endsWithChar_concat]
      decide
    have gT : endsWithChar (s ++ ['E']) 'T' = false := by
      rw [endsWithChar_concat]
      decide
    have gP : endsWithChar (s ++ ['E']) 'P' = false := by
      rw [endsWithChar_concat]
      decide
    have gE : endsWithChar (s ++ ['E']) 'E' = true := by
      rw [endsWithChar_concat]
      decide
    simp only [parse_size, h1, gB, gK, gM, gG, gT, gP, gE,
      Bool.false_eq_true, if_false, eq_self_iff_true, if_true,
      List.dropLast_concat, htrimR, hparse]
    simp only [Option.map]
    rw [Nat.mod_eq_of_lt hfit]
  · have h1 := htrimc 'Z' (by decide)
    have gB : endsWithChar (s ++ ['Z']) 'B' = false := by
      rw [endsWithChar_concat]
      decide
    have gK : endsWithChar (s ++ ['Z']) 'K' = false := by
      rw [endsWithChar_concat]
      decide
    have gM : endsWithChar (s ++ ['Z']) 'M' = false := by
      rw [endsWithChar_concat]
      decide
    have gG : endsWithChar (s ++ ['Z']) 'G' = false := by
      rw [endsWithChar_concat]
      decide
    have gT : endsWithChar (s ++ ['Z']) 'T' = false := by
      rw [endsWithChar_concat]
      decide
    have gP : endsWithChar (s ++ ['Z']) 'P' = false := by
      rw [endsWithChar_concat]
      decide
    have gE : endsWithChar (s ++ ['Z']) 'E' = false := by
      rw [endsWithChar_concat]
      decide
    have gZ : endsWithChar (s ++ ['Z']) 'Z' = true := by
      rw [endsWithChar_concat]
      decide
    simp only [parse_size, h1, gB, gK, gM, gG, gT, gP, gE, gZ,
      Bool.false_eq_true, if_false, eq_self_iff_true, if_true,
      List.dropLast_concat, htrimR, hparse]
    simp only [Option.map]
    rw [Nat.mod_eq_of_lt hfit]
  · have h1 := htrimc 'Y' (by decide)
    have gB : endsWithChar (s ++ ['Y']) 'B' = false := by
      rw [endsWithChar_concat]
      decide
    have gK : endsWithChar (s ++ ['Y']) 'K' = false := by
      rw [endsWithChar_concat]
      decide
    have gM : endsWithChar (s ++ ['Y']) 'M' = false := by
      rw [endsWithChar_concat]
      decide
    have gG : endsWithChar (s ++ ['Y']) 'G' = false := by
      rw [endsWithChar_concat]
      decide
    have gT : endsWithChar (s ++ ['Y']) 'T' = false := by
      rw [endsWithChar_concat]
      decide
    have gP : endsWithChar (s ++ ['Y']) 'P' = false := by
      rw [endsWithChar_concat]
      decide
    have gE : endsWithChar (s ++ ['Y']) 'E' = false := by
      rw [endsWithChar_concat]
      decide
    have gZ : endsWithChar (s ++ ['Y']) 'Z' = false := by
      rw [endsWithChar_concat]
      decide
    have gY : endsWithChar (s ++ ['Y']) 'Y' = true := by
      rw [endsWithChar_concat]
      decide
    simp only [parse_size, h1, gB, gK, gM, gG, gT, gP, gE, gZ, gY,
      Bool.false_eq_true, if_false, eq_self_iff_true, if_true,
      List.dropLast_concat, htrimR, hparse]
    simp only [Option.map]
    rw [Nat.mod_eq_of_lt hfit]

/-- C9 witness: `parse_size "7M" = 7 * 1024^2` and `parse_size "7" = 7`. -/
theorem parse_size_pow1024_witness :
    parse_size (['7'] ++ ['M']) = some (7 * 1024 ^ 2) ∧
    parse_size ['7'] = some 7 :=
  parse_size_pow1024 ['7'] 7 2 'M' (by decide) (by decide) (by decide)
    (by norm_num) (by decide) (by norm_num)

/-! ### C6: the verifier of src/src/check.rs -/

/-- Per-file inputs of `check`: whether the streamed CRC-32 equals the stored
one, and the entry's offset (for the alignment check).  The hash values are
environment inputs of the model: hashing and file I/O are external. -/
structure CFile where
  crcOk : Bool
  offset : Nat
deriving Repr, DecidableEq

/-- `file.offset % alignment` when an alignment was requested
(`options.alignment.unwrap_or(0)`, check.rs:112 and 139). -/
def fileReminder (alignment : Nat) (f : CFile) : Nat :=
  if 0 < alignment then f.offset % alignment else 0

/-- The per-file `ok` flag of the loop body (check.rs:137-197): the CRC
matches and, when alignment checking is on, the offset is aligned. -/
def fileOk (alignment : Nat) (f : CFile) : Bool :=
  f.crcOk && decide (fileReminder alignment f = 0)

/-- Inputs of a `check` run.  `md5s` lists the outcomes of the MD5
comparisons in processing order — the present standalone regions (index,
MD5-list, everything) followed by the per-chunk table, which share one
failure counter (check.rs:216-375); for a V1 package the list is empty. -/
structure CheckInput where
  files : List CFile
  alignment : Nat
  md5s : List Bool
  stopOnError : Bool
deriving Repr, DecidableEq

/-- The two distinguishable error messages of `check`: the early
`"package check failed"` under stop-on-error, and the final counted
summary. -/
inductive CheckFailure where
  | stopped
  | summary (files md5s : Nat)
deriving Repr, DecidableEq

/-- The shape shared by the file loop and the MD5 loops of `check`: walk the
items; a failing item either returns at once (stop-on-error) or bumps the
failure counter.  Returns (stopped-early, failures counted, iterations
run). -/
def runLoop {α : Type} (ok : α → Bool) (stop : Bool) : List α → Bool × Nat × Nat
  | [] => (false, 0, 0)
  | x :: rest =>
    if ok x then
      let r := runLoop ok stop rest
      (r.1, r.2.1, r.2.2 + 1)
    else if stop then (true, 0, 1)
    else
      let r := runLoop ok stop rest
      (r.1, r.2.1 + 1, r.2.2 + 1)

structure CheckRun where
  result : Except CheckFailure Unit
  filesProcessed : Nat
  md5sProcessed : Nat

/-- `check` (src/src/check.rs:107): walk the files, then the MD5 entries;
with stop-on-error set, the first failure returns immediately; otherwise
success iff both failure counters are zero (check.rs:378-383). -/
def check (inp : CheckInput) : CheckRun :=
  let r := runLoop (fileOk inp.alignment) inp.stopOnError inp.files
  if r.1 then ⟨.error .stopped, r.2.2, 0⟩
  else
    let m := runLoop (fun b => b) inp.stopOnError inp.md5s
    if m.1 then ⟨.error .stopped, r.2.2, m.2.2⟩
    else if r.2.1 = 0 ∧ m.2.1 = 0 then ⟨.ok (), r.2.2, m.2.2⟩
    else ⟨.error (.summary r.2.1 m.2.1), r.2.2, m.2.2⟩

theorem runLoop_all_ok {α : Type} (ok : α → Bool) (stop : Bool) (l : List α)
    (h : ∀ x ∈ l, ok x = true) : runLoop ok stop l = (false, 0, l.length) := by
  induction l with
  | nil => rfl
  | cons x rest ih =>
    have hx : ok x = true := h x (by simp)
    simp only [runLoop, hx, if_true, ih (fun y hy => h y (by simp [hy])),
      List.length_cons]

theorem runLoop_no_stop {α : Type} (ok : α → Bool) (l : List α) :
    runLoop ok false l =
      (false, (l.filter (fun x => !(ok x))).length, l.length) := by
  induction l with
  | nil => rfl
  | cons x rest ih =>
    cases hx : ok x with
    | true => simp [runLoop, hx, ih]
    | false => simp [runLoop, hx, ih]

theorem runLoop_stop_fail {α : Type} (ok : α → Bool) (l : List α)
    (h : ¬ ∀ x ∈ l, ok x = true) : (runLoop ok true l).1 = true := by
  induction l with
  | nil => exact absurd (by simp) h
  | cons x rest ih =>
    cases hx : ok x with
    | false => simp [runLoop, hx]
    | true =>
      have hrest : ¬ ∀ y ∈ rest, ok y = true := by
        intro hall
        exact h (by
          intro y hy
          rcases List.mem_cons.mp hy with h1 | h1
          · rw [h1]; exact hx
          · exact hall y h1)
      simp [runLoop, hx, ih hrest]

theorem runLoop_stop_at {α : Type} (ok : α → Bool) (l : List α) (i : Nat) (x : α)
    (hx : l[i]? = some x) (hfail : ok x = false)
    (hpre : ∀ y ∈ l.take i, ok y = true) :
    runLoop ok true l = (true, 0, i + 1) := by
  induction l generalizing i with
  | nil => simp at hx
  | cons z rest ih =>
    cases i with
    | zero =>
      have hz : z = x := by simpa using hx
      rw [hz] at hpre ⊢
      simp [runLoop, hfail]
    | succ j =>
      have hz : ok z = true := by
        apply hpre
        simp [List.take_succ_cons]
      have hx' : rest[j]? = some x := by simpa using hx
      have hpre' : ∀ y ∈ rest.take j, ok y = true := by
        intro y hy
        exact hpre y (by simp [List.take_succ_cons, hy])
      simp [runLoop, hz, ih j hx' hpre']

theorem filter_not_ok_len_zero {α : Type} (ok : α → Bool) (l : List α) :
    (l.filter (fun x => !(ok x))).length = 0 ↔ ∀ x ∈ l, ok x = true := by
  rw [List.length_eq_zero, List.filter_eq_nil_iff]
  constructor
  · intro h x hx
    have := h x hx
    simpa using this
  · intro h x hx
    simp [h x hx]

theorem check_all_ok (inp : CheckInput)
    (hf : ∀ f ∈ inp.files, fileOk inp.alignment f = true)
    (hm : ∀ b ∈ inp.md5s, b = true) :
    check inp = ⟨.ok (), inp.files.length, inp.md5s.length⟩ := by
  have h1 := runLoop_all_ok (fileOk inp.alignment) inp.stopOnError inp.files hf
  have h2 := runLoop_all_ok (fun b => b) inp.stopOnError inp.md5s hm
  simp [check, h1, h2]

theorem check_not_ok_files (inp : CheckInput)
    (hf : ¬ ∀ f ∈ inp.files, fileOk inp.alignment f = true) :
    (check inp).result ≠ .ok () := by
  cases hstop : inp.stopOnError with
  | true =>
    have h1 := runLoop_stop_fail (fileOk inp.alignment) inp.files hf
    simp [check, hstop, h1]
  | false =>
    have h1 := runLoop_no_stop (fileOk inp.alignment) inp.files
    have h2 := runLoop_no_stop (fun b => b) inp.md5s
    have hfc : (inp.files.filter (fun x => !(fileOk inp.alignment x))).length ≠ 0 := by
      intro hz
      exact hf ((filter_not_ok_len_zero _ _).mp hz)
    simp [check, hstop, h1, h2, hfc]

theorem check_not_ok_md5s (inp : CheckInput)
    (hm : ¬ ∀ b ∈ inp.md5s, b = true) :
    (check inp).result ≠ .ok () := by
  by_cases hf : ∀ f ∈ inp.files, fileOk inp.alignment f = true
  swap
  · exact check_not_ok_files inp hf
  have h1 := runLoop_all_ok (fileOk inp.alignment) inp.stopOnError inp.files hf
  cases hstop : inp.stopOnError with
  | true =>
    rw [hstop] at h1
    have h2 := runLoop_stop_fail (fun b => b) inp.md5s hm
    simp [check, hstop, h1, h2]
  | false =>
    rw [hstop] at h1
    have h2 := runLoop_no_stop (fun b => b) inp.md5s
    have hmc : (inp.md5s.filter (fun x => !x)).length ≠ 0 := by
      intro hz
      exact hm ((filter_not_ok_len_zero (fun b => b) inp.md5s).mp hz)
    simp [check, hstop, h1, h2, hmc]

def c6inp : CheckInput := ⟨[⟨true, 1⟩], 2, [], false⟩

/-- C6 counterexample: a package whose single file has a matching CRC but a
misaligned offset, checked with alignment 2.  Zero CRC-32 checks and zero MD5
checks failed, yet the verifier returns an error (the misalignment is counted
as a file failure), so "success iff zero CRC and zero MD5 failures" is
false. -/
theorem check_alignment_refutes_iff :
    (check c6inp).result = .error (.summary 1 0) ∧
    (∀ f ∈ c6inp.files, f.crcOk = true) ∧
    (∀ b ∈ c6inp.md5s, b = true) := by
  refine ⟨rfl, by decide, by decide⟩

/-- C6 amended: the verifier returns success iff zero per-file checks
(CRC-32 and, when requested, alignment) and zero MD5 checks failed; with
stop-on-error set it returns an error at the first failing file, or — when
every file passes — at the first failing MD5 entry, processing nothing
further. -/
theorem check_success_iff_and_stop (inp : CheckInput) :
    ((check inp).result = .ok () ↔
      ((∀ f ∈ inp.files, fileOk inp.alignment f = true) ∧
        (∀ b ∈ inp.md5s, b = true))) ∧
    (inp.stopOnError = true → ∀ i f, inp.files[i]? = some f →
      fileOk inp.alignment f = false →
      (∀ g ∈ inp.files.take i, fileOk inp.alignment g = true) →
      (check inp).result = .error .stopped ∧
        (check inp).filesProcessed = i + 1 ∧ (check inp).md5sProcessed = 0) ∧
    (inp.stopOnError = true → (∀ f ∈ inp.files, fileOk inp.alignment f = true) →
      ∀ i b, inp.md5s[i]? = some b → b = false →
      (∀ x ∈ inp.md5s.take i, x = true) →
      (check inp).result = .error .stopped ∧
        (check inp).filesProcessed = inp.files.length ∧
        (check inp).md5sProcessed = i + 1) := by
  refine ⟨?_, ?_, ?_⟩
  · constructor
    · intro hok
      by_cases hf : ∀ f ∈ inp.files, fileOk inp.alignment f = true
      · by_cases hm : ∀ b ∈ inp.md5s, b = true
        · exact ⟨hf, hm⟩
        · exact absurd hok (check_not_ok_md5s inp hm)
      · exact absurd hok (check_not_ok_files inp hf)
    · intro ⟨hf, hm⟩
      rw [check_all_ok inp hf hm]
  · intro hstop i f hx hfail hpre
    have h1 := runLoop_stop_at (fileOk inp.alignment) inp.files i f hx hfail hpre
    simp [check, hstop, h1]
  · intro hstop hf i b hx hfail hpre
    have h1 := runLoop_all_ok (fileOk inp.alignment) true inp.files hf
    have h2 := runLoop_stop_at (fun x => x) inp.md5s i b hx hfail hpre
    simp [check, hstop, h1, h2]

def c6winp : CheckInput := ⟨[⟨true, 0⟩, ⟨false, 0⟩], 0, [true], true⟩

/-- C6 witness: the amended theorem applied at a concrete stop-on-error run
whose second file fails. -/
theorem check_success_iff_and_stop_witness :
    (check c6winp).result = .error .stopped ∧
    (check c6winp).filesProcessed = 2 ∧ (check c6winp).md5sProcessed = 0 :=
  (check_success_iff_and_stop c6winp).2.1 rfl 1 ⟨false, 0⟩ (by rfl) (by decide)
    (by decide)

/-! ### C4: the emission order of the packer's index (src/src/pack.rs) -/

/-- Byte-lexicographic order of Rust `str` comparison: on valid UTF-8, byte
order and scalar-value order agree, so character order is used. -/
def lexLt : List Char → List Char → Bool
  | [], [] => false
  | [], _ :: _ => true
  | _ :: _, [] => false
  | x :: xs, y :: ys => if x < y then true else if y < x then false else lexLt xs ys

def strLt (a b : String) : Bool := lexLt a.data b.data

theorem data_append (a b : String) : (a ++ b).data = a.data ++ b.data := rfl

theorem lexLt_irrefl (l : List Char) : lexLt l l = false := by
  induction l with
  | nil => rfl
  | cons c cs ih => simp [lexLt, lt_irrefl, ih]

theorem lexLt_trans : ∀ a b c : List Char,
    lexLt a b = true → lexLt b c = true → lexLt a c = true := by
  intro a
  induction a with
  | nil =>
    intro b c h1 h2
    cases b with
    | nil => simp [lexLt] at h1
    | cons y bs =>
      cases c with
      | nil => simp [lexLt] at h2
      | cons z cs => rfl
  | cons x as ih =>
    intro b c h1 h2
    cases b with
    | nil => simp [lexLt] at h1
    | cons y bs =>
      cases c with
      | nil => simp [lexLt] at h2
      | cons z cs =>
        simp only [lexLt] at h1 h2 ⊢
        by_cases hxy : x < y
        · by_cases hyz : y < z
          · rw [if_pos (lt_trans hxy hyz)]
          · have hzy : ¬ z < y := by
              intro hzy
              rw [if_neg hyz, if_pos hzy] at h2
              exact Bool.noConfusion h2
            have heq : y = z := le_antisymm (not_lt.mp hzy) (not_lt.mp hyz)
            rw [if_pos (heq ▸ hxy)]
        · have hyx : ¬ y < x := by
            intro hyx
            rw [if_neg hxy, if_pos hyx] at h1
            exact Bool.noConfusion h1
          have heq : x = y := le_antisymm (not_lt.mp hyx) (not_lt.mp hxy)
          rw [if_neg hxy, if_neg hyx] at h1
          subst heq
          by_cases hxz : x < z
          · rw [if_pos hxz]
          · have hzx : ¬ z < x := by
              intro hzx
              rw [if_neg hxz, if_pos hzx] at h2
              exact Bool.noConfusion h2
            rw [if_neg hxz, if_neg hzx] at h2 ⊢
            exact ih bs cs h1 h2

theorem lexLt_asymm (a b : List Char) (h : lexLt a b = true) : lexLt b a = false := by
  cases hba : lexLt b a with
  | false => rfl
  | true =>
    have := lexLt_trans a b a h hba
    rw [lexLt_irrefl] at this
    exact Bool.noConfusion this

theorem lexLt_total (a b : List Char) (h1 : lexLt a b = false)
    (h2 : lexLt b a = false) : a = b := by
  induction a generalizing b with
  | nil =>
    cases b with
    | nil => rfl
    | cons y bs => simp [lexLt] at h1
  | cons x as ih =>
    cases b with
    | nil => simp [lexLt] at h2
    | cons y bs =>
      simp only [lexLt] at h1 h2
      by_cases hxy : x < y
      · rw [if_pos hxy] at h1; exact Bool.noConfusion h1
      · by_cases hyx : y < x
        · rw [if_pos hyx] at h2; exact Bool.noConfusion h2
        · have heq : x = y := le_antisymm (not_lt.mp hyx) (not_lt.mp hxy)
          rw [if_neg hxy, if_neg hyx] at h1
          rw [if_neg hyx, if_neg hxy] at h2
          rw [heq, ih bs h1 h2]

theorem lexLt_append_left (p a b : List Char) :
    lexLt (p ++ a) (p ++ b) = lexLt a b := by
  induction p with
  | nil => rfl
  | cons c cs ih => simp [lexLt, lt_irrefl, ih]

theorem strLt_irrefl (a : String) : strLt a a = false := lexLt_irrefl _

theorem strLt_trans (a b c : String) (h1 : strLt a b = true)
    (h2 : strLt b c = true) : strLt a c = true := lexLt_trans _ _ _ h1 h2

theorem strLt_asymm (a b : String) (h : strLt a b = true) : strLt b a = false :=
  lexLt_asymm _ _ h

theorem strLt_total (a b : String) (h1 : strLt a b = false)
    (h2 : strLt b a = false) : a = b := by
  cases a with
  | mk d1 =>
    cases b with
    | mk d2 => exact congrArg String.mk (lexLt_total d1 d2 h1 h2)

/-- Stable insertion into a sorted list, modelling `Vec::sort`/`sort_by`
(which only promise a stable sort): the inserted element goes before the
first strictly greater element. -/
def insortBy {α : Type} (lt : α → α → Bool) (x : α) : List α → List α
  | [] => [x]
  | y :: ys => if lt x y then x :: y :: ys else y :: insortBy lt x ys

def sortBy {α : Type} (lt : α → α → Bool) (l : List α) : List α :=
  l.foldr (insortBy lt) []

theorem insortBy_perm {α : Type} (lt : α → α → Bool) (x : α) (l : List α) :
    (insortBy lt x l).Perm (x :: l) := by
  induction l with
  | nil => exact List.Perm.refl _
  | cons y ys ih =>
    simp only [insortBy]
    by_cases h : lt x y = true
    · rw [if_pos h]
    · rw [if_neg h]
      exact (ih.cons y).trans (List.Perm.swap x y ys)

theorem sortBy_perm {α : Type} (lt : α → α → Bool) (l : List α) :
    (sortBy lt l).Perm l := by
  induction l with
  | nil => exact List.Perm.refl _
  | cons x xs ih => exact (insortBy_perm lt x (sortBy lt xs)).trans (ih.cons x)

theorem insortBy_sorted {α : Type} (lt : α → α → Bool)
    (htrans : ∀ p q w, lt p q = true → lt q w = true → lt p w = true)
    (hirrefl : ∀ a, lt a a = false)
    (x : α) (l : List α) (h : l.Pairwise (fun a b => lt b a = false)) :
    (insortBy lt x l).Pairwise (fun a b => lt b a = false) := by
  induction l with
  | nil => exact List.pairwise_singleton _ _
  | cons y ys ih =>
    rcases List.pairwise_cons.mp h with ⟨hy, hys⟩
    simp only [insortBy]
    by_cases hxy : lt x y = true
    · rw [if_pos hxy]
      refine List.pairwise_cons.mpr ⟨?_, h⟩
      intro z hz
      rcases List.mem_cons.mp hz with rfl | hz
      · cases hyx : lt z x with
        | false => rfl
        | true =>
          have := htrans x z x hxy hyx
          rw [hirrefl] at this
          exact Bool.noConfusion this
      · cases hzx : lt z x with
        | false => rfl
        | true =>
          have := htrans z x y hzx hxy
          rw [hy z hz] at this
          exact Bool.noConfusion this
    · rw [if_neg hxy]
      refine List.pairwise_cons.mpr ⟨?_, ih hys⟩
      intro z hz
      have hz' := (insortBy_perm lt x ys).mem_iff.mp hz
      rcases List.mem_cons.mp hz' with rfl | hz'
      · cases hval : lt z y with
        | false => rfl
        | true => exact absurd hval hxy
      · exact hy z hz'

theorem sortBy_sorted {α : Type} (lt : α → α → Bool)
    (htrans : ∀ p q w, lt p q = true → lt q w = true → lt p w = true)
    (hirrefl : ∀ a, lt a a = false) (l : List α) :
    (sortBy lt l).Pairwise (fun a b => lt b a = false) := by
  induction l with
  | nil => simp [sortBy]
  | cons x xs ih => exact insortBy_sorted lt htrans hirrefl x (sortBy lt xs) ih

theorem sortBy_sorted_strict {α : Type} (lt : α → α → Bool)
    (htrans : ∀ p q w, lt p q = true → lt q w = true → lt p w = true)
    (hirrefl : ∀ a, lt a a = false)
    (htotal : ∀ a b, lt a b = false → lt b a = false → a = b)
    (l : List α) (hnd : l.Pairwise (· ≠ ·)) :
    (sortBy lt l).Pairwise (fun a b => lt a b = true) := by
  have hs := sortBy_sorted lt htrans hirrefl l
  have hnd' : (sortBy lt l).Pairwise (· ≠ ·) :=
    ((sortBy_perm lt l).pairwise_iff (fun {a b} h => h.symm)).mpr hnd
  refine (hs.and hnd').imp ?_
  intro a b hab
  cases hval : lt a b with
  | false => exact absurd (htotal a b hval hab.1) hab.2
  | true => rfl

theorem pairwise_flatMap {α β : Type} {R : β → β → Prop} (l : List α)
    (f : α → List β) (h1 : ∀ a ∈ l, (f a).Pairwise R)
    (h2 : l.Pairwise (fun a b => ∀ x ∈ f a, ∀ y ∈ f b, R x y)) :
    (l.flatMap f).Pairwise R := by
  induction l with
  | nil => simp
  | cons a as ih =>
    rcases List.pairwise_cons.mp h2 with ⟨ha, has⟩
    rw [List.flatMap_cons, List.pairwise_append]
    refine ⟨h1 a (by simp), ih (fun b hb => h1 b (by simp [hb])) has, ?_⟩
    intro x hx y hy
    rcases List.mem_flatMap.mp hy with ⟨b, hb, hyb⟩
    exact ha b hb x hx y hyb

/-- An entry of the packer's item list: the VPK directory path, the bare file
name, and the extension (pack.rs `Item::dir/name/ext`). -/
structure PackItem where
  dir : String
  name : String
  ext : String
deriving Repr, DecidableEq

/-- The full VPK path of an item, the key `pack` sorts by
(`list.sort_by(|a, b| a.path.cmp(&b.path))`, pack.rs:494). -/
def itemPath (it : PackItem) : String := it.dir ++ "/" ++ it.name ++ "." ++ it.ext

def itemLt (a b : PackItem) : Bool := strLt (itemPath a) (itemPath b)

def sortedItems (items : List PackItem) : List PackItem := sortBy itemLt items

/-- The sorted extension keys of `write_dir` (`exts.sort()`, pack.rs:315). -/
def extsOf (items : List PackItem) : List String :=
  sortBy strLt ((items.map (fun it => it.ext)).dedup)

/-- The sorted directory keys within one extension (`dirs.sort()`,
pack.rs:339). -/
def dirsOf (items : List PackItem) (e : String) : List String :=
  sortBy strLt (((items.filter (fun it => decide (it.ext = e))).map
    (fun it => it.dir)).dedup)

/-- The file list of one `(ext, dir)` group: the path-sorted items filtered
to the group, in order (extmap grouping, pack.rs:594-605). -/
def filesOf (items : List PackItem) (e d : String) : List PackItem :=
  (sortedItems items).filter (fun it => decide (it.ext = e ∧ it.dir = d))

/-- The sequence of file records written by `write_dir` (pack.rs:334-355):
extensions sorted, directories within an extension sorted, files of a group
in path-sorted order. -/
def emittedIndex (items : List PackItem) : List PackItem :=
  (extsOf items).flatMap (fun e =>
    (dirsOf items e).flatMap (fun d => filesOf items e d))

def c4items : List PackItem := [⟨"d", "a", "txt"⟩, ⟨"d", "a-b", "txt"⟩]

/-- C4 counterexample: names `a` and `a-b` in the same directory `d` and
extension `txt`.  Byte-lexicographically `a < a-b`, but the packer sorts by
full path and `d/a-b.txt < d/a.txt` (`-` = 0x2D before `.` = 0x2E), so the
record of `a-b` is emitted before the record of `a`. -/
theorem emitted_index_name_order_counterexample :
    emittedIndex c4items = [⟨"d", "a-b", "txt"⟩, ⟨"d", "a", "txt"⟩] ∧
    strLt "a" "a-b" = true := by
  refine ⟨by decide, by decide⟩

theorem filesOf_mem {items : List PackItem} {e d : String} {it : PackItem}
    (h : it ∈ filesOf items e d) : it.ext = e ∧ it.dir = d := by
  rcases List.mem_filter.mp h with ⟨_, hcond⟩
  simpa using hcond

theorem itemLt_name_of_same_group {a b : PackItem} (hd : a.dir = b.dir)
    (h : itemLt a b = true) :
    strLt (a.name ++ "." ++ a.ext) (b.name ++ "." ++ b.ext) = true := by
  simp only [itemLt, itemPath, strLt, data_append] at h
  simp only [strLt, data_append]
  rw [hd] at h
  rw [List.append_assoc, List.append_assoc, List.append_assoc,
    List.append_assoc, List.append_assoc, List.append_assoc] at h
  rw [lexLt_append_left, lexLt_append_left] at h
  rw [← List.append_assoc, ← List.append_assoc] at h
  exact h

theorem sortedItems_strict (items : List PackItem)
    (hdp : items.Pairwise (fun a b => itemPath a ≠ itemPath b)) :
    (sortedItems items).Pairwise (fun a b => itemLt a b = true) := by
  have hs := sortBy_sorted itemLt
    (fun _ _ _ h1 h2 => strLt_trans _ _ _ h1 h2)
    (fun x => strLt_irrefl (itemPath x)) items
  have hnd' : (sortedItems items).Pairwise (fun a b => itemPath a ≠ itemPath b) :=
    ((sortBy_perm itemLt items).pairwise_iff (fun {a b} h => h.symm)).mpr hdp
  refine (hs.and hnd').imp ?_
  intro a b hab
  cases hval : itemLt a b with
  | false => exact absurd (strLt_total _ _ hval hab.1) hab.2
  | true => rfl

theorem strings_sorted_strict (l : List String) :
    (sortBy strLt l.dedup).Pairwise (fun a b => strLt a b = true) :=
  sortBy_sorted_strict strLt (fun _ _ _ h1 h2 => strLt_trans _ _ _ h1 h2)
    (fun s => strLt_irrefl s) strLt_total l.dedup (List.nodup_dedup l)

/-- C4 amended: in the emitted index, extensions appear in ascending
byte-lexicographic order, directories within an extension in ascending
byte-lexicographic order, and file records within one extension and
directory in ascending byte-lexicographic order of `NAME.EXT` (equivalently
of the full path) — not of the bare `NAME`. -/
theorem emitted_index_sorted (items : List PackItem)
    (hdp : items.Pairwise (fun a b => itemPath a ≠ itemPath b)) :
    (emittedIndex items).Pairwise (fun a b =>
      strLt b.ext a.ext = false ∧
      (a.ext = b.ext → strLt b.dir a.dir = false) ∧
      (a.ext = b.ext → a.dir = b.dir →
        strLt (a.name ++ "." ++ a.ext) (b.name ++ "." ++ b.ext) = true)) := by
  apply pairwise_flatMap
  · intro e hemem
    apply pairwise_flatMap
    · intro d hdmem
      have hp : (filesOf items e d).Pairwise (fun a b => itemLt a b = true) :=
        (sortedItems_strict items hdp).filter _
      refine hp.imp_of_mem ?_
      intro a b ha hb hab
      obtain ⟨hae, had⟩ := filesOf_mem ha
      obtain ⟨hbe, hbd⟩ := filesOf_mem hb
      refine ⟨?_, fun _ => ?_, fun _ _ => ?_⟩
      · rw [hbe, ← hae, strLt_irrefl]
      · rw [hbd, ← had, strLt_irrefl]
      · exact itemLt_name_of_same_group (by rw [had, hbd]) hab
    · have hd : (dirsOf items e).Pairwise (fun a b => strLt a b = true) :=
        strings_sorted_strict _
      refine hd.imp_of_mem ?_
      intro d1 d2 _ _ h12 x hx y hy
      obtain ⟨hxe, hxd⟩ := filesOf_mem hx
      obtain ⟨hye, hyd⟩ := filesOf_mem hy
      refine ⟨?_, fun _ => ?_, fun _ hdd => ?_⟩
      · rw [hye, ← hxe, strLt_irrefl]
      · rw [hyd, hxd, strLt_asymm d1 d2 h12]
      · rw [hxd, hyd] at hdd
        subst hdd
        rw [strLt_irrefl] at h12
        exact Bool.noConfusion h12
  · have he : (extsOf items).Pairwise (fun a b => strLt a b = true) :=
      strings_sorted_strict _
    refine he.imp_of_mem ?_
    intro e1 e2 _ _ h12 x hx y hy
    rcases List.mem_flatMap.mp hx with ⟨d1, _, hx1⟩
    rcases List.mem_flatMap.mp hy with ⟨d2, _, hy1⟩
    obtain ⟨hxe, _⟩ := filesOf_mem hx1
    obtain ⟨hye, _⟩ := filesOf_mem hy1
    refine ⟨?_, fun hee => ?_, fun hee _ => ?_⟩
    · rw [hye, hxe, strLt_asymm e1 e2 h12]
    · rw [hxe, hye] at hee
      subst hee
      rw [strLt_irrefl] at h12
      exact Bool.noConfusion h12
    · rw [hxe, hye] at hee
      subst hee
      rw [strLt_irrefl] at h12
      exact Bool.noConfusion h12

def c4witems : List PackItem := [⟨"d", "b", "txt"⟩, ⟨"d", "a", "txt"⟩]

/-- C4 witness: the amended ordering theorem applied at a concrete item
list. -/
theorem emitted_index_sorted_witness :
    (emittedIndex c4witems).Pairwise (fun a b =>
      strLt b.ext a.ext = false ∧
      (a.ext = b.ext → strLt b.dir a.dir = false) ∧
      (a.ext = b.ext → a.dir = b.dir →
        strLt (a.name ++ "." ++ a.ext) (b.name ++ "." ++ b.ext) = true)) :=
  emitted_index_sorted c4witems (by decide)

/-! ### C5: the packer's offset layout (src/src/pack.rs:528-588) -/

/-- One file as the layout pass sees it (only the fields it touches). -/
structure PFile where
  size : Nat
  archive_index : Nat
  offset : Nat
deriving Repr, DecidableEq

/-- The alignment rounding `archive_size += alignment - remainder`
(pack.rs:538-541 and 577-579). -/
def alignUp (n alignment : Nat) : Nat :=
  if n % alignment ≠ 0 then n + (alignment - n % alignment) else n

theorem alignUp_ge (n alignment : Nat) : n ≤ alignUp n alignment := by
  unfold alignUp
  split <;> omega

/-- `ArchiveStrategy` (pack.rs:33). -/
inductive ArchiveStrategy where
  | archiveFromDirName
  | maxArchiveSize (max_size : Nat)

structure MaxSt where
  archive_index : Nat
  archive_size : Nat
deriving Repr, DecidableEq

/-- One iteration of the `MaxArchiveSize` distribution loop (pack.rs:536-561);
assigned offsets carry the `as u32` cast as `% 2^32`. -/
def maxStep (alignment max_size : Nat) : MaxSt → PFile → Except Unit (MaxSt × PFile)
  | ⟨c, s⟩, f =>
    if f.size = 0 then .ok (⟨c, s⟩, f)
    else
      let asize := alignUp s alignment
      let new_size := asize + f.size
      if max_size < new_size then
        if c = DIR_INDEX then
          .ok (⟨0, f.size⟩, ⟨f.size, 0, 0⟩)
        else if c = 999 then .error ()
        else .ok (⟨c + 1, f.size⟩, ⟨f.size, c + 1, 0⟩)
      else .ok (⟨c, new_size⟩, ⟨f.size, c, asize % 2 ^ 32⟩)

def runMax (alignment max_size : Nat) : MaxSt → List PFile →
    Except Unit (MaxSt × List PFile)
  | st, [] => .ok (st, [])
  | st, f :: rest =>
    match maxStep alignment max_size st f with
    | .error e => .error e
    | .ok (st', f') =>
      match runMax alignment max_size st' rest with
      | .error e => .error e
      | .ok (stf, out) => .ok (stf, f' :: out)

/-- One iteration of the `ArchiveFromDirName` loop (pack.rs:571-584); the
`archmap` is the per-index running size, 0 for untouched indices and
`dir_size` for `DIR_INDEX` (pack.rs:568-569). -/
def dirStep (alignment : Nat) (m : Nat → Nat) (f : PFile) : (Nat → Nat) × PFile :=
  if f.size = 0 then (m, f)
  else
    let asize := alignUp (m f.archive_index) alignment
    (fun i => if i = f.archive_index then asize + f.size else m i,
     ⟨f.size, f.archive_index, asize % 2 ^ 32⟩)

def runDir (alignment : Nat) : (Nat → Nat) → List PFile → (Nat → Nat) × List PFile
  | m, [] => (m, [])
  | m, f :: rest =>
    let p := dirStep alignment m f
    let q := runDir alignment p.1 rest
    (q.1, p.2 :: q.2)

def initDirMap (dir_size : Nat) : Nat → Nat :=
  fun i => if i = DIR_INDEX then dir_size else 0

/-- The offset-assignment pass of `pack` over the path-sorted (canonical)
file list, for either strategy. -/
def layout : ArchiveStrategy → Nat → Nat → List PFile → Except Unit (List PFile)
  | .maxArchiveSize ms, alignment, dir_size, files =>
    match runMax alignment ms ⟨DIR_INDEX, dir_size⟩ files with
    | .error e => .error e
    | .ok (_, out) => .ok out
  | .archiveFromDirName, alignment, dir_size, files =>
    .ok (runDir alignment (initDirMap dir_size) files).2

/-- No `as u32` truncation happens along an `ArchiveFromDirName` run: every
assigned offset plus size stays below `2^32`. -/
def dirNoOverflow (alignment : Nat) : (Nat → Nat) → List PFile → Bool
  | _, [] => true
  | m, f :: rest =>
    (decide (f.size = 0) ||
      decide (alignUp (m f.archive_index) alignment + f.size < 2 ^ 32)) &&
    dirNoOverflow alignment (dirStep alignment m f).1 rest

/-- The no-truncation proviso per strategy: `MaxArchiveSize` carries a `u32`
bound so offsets never truncate; `ArchiveFromDirName` has no bound and needs
the run to stay below `2^32`. -/
def stratOk : ArchiveStrategy → Nat → Nat → List PFile → Prop
  | .maxArchiveSize ms, _, _, _ => ms < 2 ^ 32
  | .archiveFromDirName, alignment, dir_size, files =>
    dirNoOverflow alignment (initDirMap dir_size) files = true

/-- The monotonicity relation of the claim, for two laid-out files in list
order. -/
def monoR (a b : PFile) : Prop :=
  a.archive_index = b.archive_index → 0 < a.size → 0 < b.size →
    a.offset + a.size ≤ b.offset

def c5big : Nat := 2 ^ 31 - 1

def c5files : List PFile :=
  [⟨c5big, 0, 0⟩, ⟨c5big, 0, 0⟩, ⟨c5big, 0, 0⟩, ⟨c5big, 0, 0⟩]

def c5out : List PFile :=
  [⟨c5big, 0, 0⟩, ⟨c5big, 0, 2147483647⟩, ⟨c5big, 0, 4294967294⟩,
   ⟨c5big, 0, 2147483645⟩]

/-- C5 counterexample: four files of `i32::MAX` bytes into archive `000`
under `ArchiveFromDirName` (alignment 1, dir_size 28).  The running archive
size exceeds `2^32`, the `as u32` cast wraps the fourth offset to
`2147483645`, and the third and fourth entries overlap: the claim fails as
stated for that strategy. -/
theorem layout_offset_overflow_counterexample :
    layout .archiveFromDirName 1 28 c5files = .ok c5out ∧
    c5out[2]? = some ⟨c5big, 0, 4294967294⟩ ∧
    c5out[3]? = some ⟨c5big, 0, 2147483645⟩ ∧
    ¬ (4294967294 + c5big ≤ 2147483645) := by
  refine ⟨by rfl, by rfl, by rfl, by decide⟩

theorem runDir_map_mono (alignment : Nat) (m : Nat → Nat) (files : List PFile) :
    ∀ i, m i ≤ (runDir alignment m files).1 i := by
  induction files generalizing m with
  | nil => intro i; exact le_refl _
  | cons f fs ih =>
    intro i
    refine le_trans ?_ (ih (dirStep alignment m f).1 i)
    unfold dirStep
    by_cases hsz : f.size = 0
    · rw [if_pos hsz]
    · rw [if_neg hsz]
      show m i ≤ (if i = f.archive_index
        then alignUp (m f.archive_index) alignment + f.size else m i)
      by_cases hi : i = f.archive_index
      · rw [if_pos hi, hi]
        have := alignUp_ge (m f.archive_index) alignment
        omega
      · rw [if_neg hi]

theorem runDir_props (alignment : Nat) (m : Nat → Nat) (files : List PFile)
    (hno : dirNoOverflow alignment m files = true) :
    (∀ g ∈ (runDir alignment m files).2, 0 < g.size →
      m g.archive_index ≤ g.offset ∧
      g.offset + g.size ≤ (runDir alignment m files).1 g.archive_index) ∧
    (runDir alignment m files).2.Pairwise monoR := by
  induction files generalizing m with
  | nil => exact ⟨by intro g hg; simp [runDir] at hg, List.Pairwise.nil⟩
  | cons f fs ih =>
    simp only [dirNoOverflow, Bool.and_eq_true, Bool.or_eq_true,
      decide_eq_true_eq] at hno
    obtain ⟨hcond, hno'⟩ := hno
    by_cases hsz : f.size = 0
    · have hstep : dirStep alignment m f = (m, f) := by
        unfold dirStep
        rw [if_pos hsz]
      have ihr := ih m (by rw [hstep] at hno'; exact hno')
      have hrw : (runDir alignment m (f :: fs)).2 =
          f :: (runDir alignment m fs).2 := by
        simp only [runDir, hstep]
      have hrw1 : (runDir alignment m (f :: fs)).1 =
          (runDir alignment m fs).1 := by
        simp only [runDir, hstep]
      constructor
      · intro g hg hgsz
        rw [hrw] at hg
        rw [hrw1]
        rcases List.mem_cons.mp hg with rfl | hg'
        · omega
        · exact ihr.1 g hg' hgsz
      · rw [hrw]
        refine List.pairwise_cons.mpr ⟨?_, ihr.2⟩
        intro g _ _ hfsz
        omega
    · have hlt : alignUp (m f.archive_index) alignment + f.size < 2 ^ 32 := by
        rcases hcond with h | h
        · exact absurd h hsz
        · exact h
      set a := f.archive_index with ha
      set asize := alignUp (m a) alignment with hasize
      have hmod : asize % 2 ^ 32 = asize := Nat.mod_eq_of_lt (by omega)
      have hstep : dirStep alignment m f =
          ((fun i => if i = a then asize + f.size else m i),
           ⟨f.size, a, asize % 2 ^ 32⟩) := by
        unfold dirStep
        rw [if_neg hsz]
      set m' := (fun i => if i = a then asize + f.size else m i) with hm'
      have ihr := ih m' (by rw [hstep] at hno'; exact hno')
      have hrw : (runDir alignment m (f :: fs)).2 =
          (⟨f.size, a, asize % 2 ^ 32⟩ : PFile) :: (runDir alignment m' fs).2 := by
        simp only [runDir, hstep]
      have hrw1 : (runDir alignment m (f :: fs)).1 = (runDir alignment m' fs).1 := by
        simp only [runDir, hstep]
      constructor
      · intro g hg hgsz
        rw [hrw] at hg
        rw [hrw1]
        rcases List.mem_cons.mp hg with rfl | hg'
        · constructor
          · simp only [hmod]
            exact alignUp_ge _ _
          · have hfin := runDir_map_mono alignment m' fs a
            have hma : m' a = asize + f.size := by
              simp [hm']
            simp only [hmod]
            omega
        · have h2 := ihr.1 g hg' hgsz
          have hm'g : m g.archive_index ≤ m' g.archive_index := by
            by_cases hgi : g.archive_index = a
            · rw [hm']
              show m g.archive_index ≤
                (if g.archive_index = a then asize + f.size else m g.archive_index)
              rw [if_pos hgi, hgi]
              have := alignUp_ge (m a) alignment
              omega
            · rw [hm']
              show m g.archive_index ≤
                (if g.archive_index = a then asize + f.size else m g.archive_index)
              rw [if_neg hgi]
          exact ⟨le_trans hm'g h2.1, h2.2⟩
      · rw [hrw]
        refine List.pairwise_cons.mpr ⟨?_, ihr.2⟩
        intro g hg
        intro hgi hfsz hgsz
        have h2 := (ihr.1 g hg hgsz).1
        have hma : m' g.archive_index = asize + f.size := by
          rw [hm']
          show (if g.archive_index = a then asize + f.size else m g.archive_index) =
            asize + f.size
          rw [if_pos (by simpa using hgi.symm)]
        simp only at hgi ⊢
        rw [hmod]
        omega

/-- The indices a `MaxArchiveSize` run can still assign, viewed from the
current archive index `c`: `c` itself, or a later one in the rollover chain
`DIR_INDEX, 0, 1, …, 999`. -/
def idxFuture (c i : Nat) : Prop :=
  i = c ∨ (c = DIR_INDEX ∧ i ≤ 999) ∨ (c ≠ DIR_INDEX ∧ c < i ∧ i ≤ 999)

theorem runMax_props (alignment max_size : Nat) (hms : max_size < 2 ^ 32) :
    ∀ (files : List PFile) (c s : Nat) (stf : MaxSt) (out : List PFile),
    (c = DIR_INDEX ∨ c ≤ 999) →
    runMax alignment max_size ⟨c, s⟩ files = .ok (stf, out) →
    (∀ g ∈ out, 0 < g.size → idxFuture c g.archive_index) ∧
    (∀ g ∈ out, 0 < g.size → g.archive_index = c → s ≤ g.offset) ∧
    out.Pairwise monoR := by
  intro files
  induction files with
  | nil =>
    intro c s stf out _ hok
    simp only [runMax, Except.ok.injEq, Prod.mk.injEq] at hok
    rw [← hok.2]
    exact ⟨by intro g hg; simp at hg, by intro g hg; simp at hg, List.Pairwise.nil⟩
  | cons f fs ih =>
    intro c s stf out hst hok
    have hD : DIR_INDEX = 32767 := rfl
    by_cases hsz : f.size = 0
    · have hstep : maxStep alignment max_size ⟨c, s⟩ f = .ok (⟨c, s⟩, f) := by
        simp only [maxStep]
        rw [if_pos hsz]
      simp only [runMax, hstep] at hok
      cases hrec : runMax alignment max_size ⟨c, s⟩ fs with
      | error e => rw [hrec] at hok; exact Except.noConfusion hok
      | ok p =>
        obtain ⟨stf', out'⟩ := p
        rw [hrec] at hok
        simp only [Except.ok.injEq, Prod.mk.injEq] at hok
        rw [← hok.2]
        have ihr := ih c s stf' out' hst hrec
        refine ⟨?_, ?_, ?_⟩
        · intro g hg hgsz
          rcases List.mem_cons.mp hg with rfl | hg'
          · omega
          · exact ihr.1 g hg' hgsz
        · intro g hg hgsz hgi
          rcases List.mem_cons.mp hg with rfl | hg'
          · omega
          · exact ihr.2.1 g hg' hgsz hgi
        · refine List.pairwise_cons.mpr ⟨?_, ihr.2.2⟩
          intro g _ _ hfsz
          omega
    · have hge : s ≤ alignUp s alignment := alignUp_ge s alignment
      by_cases hroll : max_size < alignUp s alignment + f.size
      · rcases hst with hdir | hle
        · -- c = DIR_INDEX → new index 0
          have hstep : maxStep alignment max_size ⟨c, s⟩ f =
              .ok (⟨0, f.size⟩, ⟨f.size, 0, 0⟩) := by
            simp only [maxStep]
            rw [if_neg hsz, if_pos hroll, if_pos hdir]
          simp only [runMax, hstep] at hok
          cases hrec : runMax alignment max_size ⟨0, f.size⟩ fs with
          | error e => rw [hrec] at hok; exact Except.noConfusion hok
          | ok p =>
            obtain ⟨stf', out'⟩ := p
            rw [hrec] at hok
            simp only [Except.ok.injEq, Prod.mk.injEq] at hok
            rw [← hok.2]
            have ihr := ih 0 f.size stf' out' (Or.inr (by omega)) hrec
            refine ⟨?_, ?_, ?_⟩
            · intro g hg hgsz
              rcases List.mem_cons.mp hg with rfl | hg'
              · show idxFuture c 0
                right; left; exact ⟨hdir, by omega⟩
              · rcases ihr.1 g hg' hgsz with h | h | h
                · right; left; exact ⟨hdir, by omega⟩
                · omega
                · right; left; exact ⟨hdir, by omega⟩
            · intro g hg hgsz hgi
              rcases List.mem_cons.mp hg with rfl | hg'
              · exfalso
                have : (0 : Nat) = c := hgi
                omega
              · rcases ihr.1 g hg' hgsz with h | h | h
                · omega
                · omega
                · omega
            · refine List.pairwise_cons.mpr ⟨?_, ihr.2.2⟩
              intro g hg hgi hfsz hgsz
              have hoff := ihr.2.1 g hg hgsz (by
                have : (0 : Nat) = g.archive_index := hgi
                omega)
              show (0 : Nat) + f.size ≤ g.offset
              omega
        · by_cases h999 : c = 999
          · have hstep : maxStep alignment max_size ⟨c, s⟩ f = .error () := by
              simp only [maxStep]
              rw [if_neg hsz, if_pos hroll, if_neg (by omega), if_pos h999]
            simp only [runMax, hstep] at hok
            exact Except.noConfusion hok
          · have hstep : maxStep alignment max_size ⟨c, s⟩ f =
                .ok (⟨c + 1, f.size⟩, ⟨f.size, c + 1, 0⟩) := by
              simp only [maxStep]
              rw [if_neg hsz, if_pos hroll, if_neg (by omega), if_neg h999]
            simp only [runMax, hstep] at hok
            cases hrec : runMax alignment max_size ⟨c + 1, f.size⟩ fs with
            | error e => rw [hrec] at hok; exact Except.noConfusion hok
            | ok p =>
              obtain ⟨stf', out'⟩ := p
              rw [hrec] at hok
              simp only [Except.ok.injEq, Prod.mk.injEq] at hok
              rw [← hok.2]
              have ihr := ih (c + 1) f.size stf' out' (Or.inr (by omega)) hrec
              refine ⟨?_, ?_, ?_⟩
              · intro g hg hgsz
                rcases List.mem_cons.mp hg with rfl | hg'
                · show idxFuture c (c + 1)
                  right; right
                  refine ⟨by omega, by omega, by omega⟩
                · rcases ihr.1 g hg' hgsz with h | h | h
                  · right; right; omega
                  · omega
                  · right; right; omega
              · intro g hg hgsz hgi
                rcases List.mem_cons.mp hg with rfl | hg'
                · exfalso
                  have : c + 1 = c := hgi
                  omega
                · rcases ihr.1 g hg' hgsz with h | h | h
                  · omega
                  · omega
                  · omega
              · refine List.pairwise_cons.mpr ⟨?_, ihr.2.2⟩
                intro g hg hgi hfsz hgsz
                have hoff := ihr.2.1 g hg hgsz (by
                  have : c + 1 = g.archive_index := hgi
                  omega)
                show (0 : Nat) + f.size ≤ g.offset
                omega
      · have hmod : alignUp s alignment % 2 ^ 32 =
            alignUp s alignment := Nat.mod_eq_of_lt (by omega)
        have hstep : maxStep alignment max_size ⟨c, s⟩ f =
            .ok (⟨c, alignUp s alignment + f.size⟩,
              ⟨f.size, c, alignUp s alignment % 2 ^ 32⟩) := by
          simp only [maxStep]
          rw [if_neg hsz, if_neg hroll]
        simp only [runMax, hstep] at hok
        cases hrec : runMax alignment max_size
            ⟨c, alignUp s alignment + f.size⟩ fs with
        | error e => rw [hrec] at hok; exact Except.noConfusion hok
        | ok p =>
          obtain ⟨stf', out'⟩ := p
          rw [hrec] at hok
          simp only [Except.ok.injEq, Prod.mk.injEq] at hok
          rw [← hok.2]
          have ihr := ih c (alignUp s alignment + f.size) stf' out' hst hrec
          refine ⟨?_, ?_, ?_⟩
          · intro g hg hgsz
            rcases List.mem_cons.mp hg with rfl | hg'
            · left; rfl
            · exact ihr.1 g hg' hgsz
          · intro g hg hgsz hgi
            rcases List.mem_cons.mp hg with rfl | hg'
            · show s ≤ alignUp s alignment % 2 ^ 32
              rw [hmod]
              omega
            · have := ihr.2.1 g hg' hgsz hgi
              omega
          · refine List.pairwise_cons.mpr ⟨?_, ihr.2.2⟩
            intro g hg hgi hfsz hgsz
            have hoff := ihr.2.1 g hg hgsz (by
              have : c = g.archive_index := hgi
              omega)
            show alignUp s alignment % 2 ^ 32 + f.size ≤ g.offset
            rw [hmod]
            omega

/-- C5 amended: for either strategy and any alignment (≥ 1), provided no
`as u32` offset truncation occurs (automatic for `MaxArchiveSize`, whose
bound is a `u32`; a side condition for `ArchiveFromDirName`), any two files
laid out by the packer (size > 0) into the same archive satisfy
`f1.offset + f1.size ≤ f2.offset` in canonical order: payload regions in one
archive never overlap. -/
theorem layout_offsets_monotone (strategy : ArchiveStrategy)
    (alignment dir_size : Nat) (files out : List PFile)
    (hok : layout strategy alignment dir_size files = .ok out)
    (hs : stratOk strategy alignment dir_size files) :
    ∀ (i j : Nat) (fi fj : PFile), i < j → out[i]? = some fi → out[j]? = some fj →
      fi.archive_index = fj.archive_index → 0 < fi.size → 0 < fj.size →
      fi.offset + fi.size ≤ fj.offset := by
  have hpw : out.Pairwise monoR := by
    cases strategy with
    | archiveFromDirName =>
      simp only [layout, Except.ok.injEq] at hok
      rw [← hok]
      exact (runDir_props alignment (initDirMap dir_size) files hs).2
    | maxArchiveSize ms =>
      cases hrun : runMax alignment ms ⟨DIR_INDEX, dir_size⟩ files with
      | error e =>
        simp only [layout, hrun] at hok
        exact Except.noConfusion hok
      | ok p =>
        obtain ⟨stf, out'⟩ := p
        simp only [layout, hrun, Except.ok.injEq] at hok
        rw [← hok]
        exact (runMax_props alignment ms hs files DIR_INDEX dir_size stf out'
          (Or.inl rfl) hrun).2.2
  intro i j fi fj hij hgi hgj hidx hszi hszj
  rw [List.getElem?_eq_some] at hgi hgj
  obtain ⟨hi, hgi⟩ := hgi
  obtain ⟨hj, hgj⟩ := hgj
  have := List.pairwise_iff_getElem.mp hpw i j hi hj hij
  rw [hgi, hgj] at this
  exact this hidx hszi hszj

def c5wfiles : List PFile := [⟨10, 0, 0⟩, ⟨0, 7, 3⟩, ⟨5, 0, 0⟩]

/-- C5 witness: the amended theorem applied at a concrete
`MaxArchiveSize` run. -/
theorem layout_offsets_monotone_witness :
    (⟨10, 32767, 28⟩ : PFile).offset + (⟨10, 32767, 28⟩ : PFile).size ≤
      (⟨5, 32767, 38⟩ : PFile).offset :=
  layout_offsets_monotone (.maxArchiveSize 4096) 1 28 c5wfiles
    [⟨10, 32767, 28⟩, ⟨0, 7, 3⟩, ⟨5, 32767, 38⟩] (by rfl) (by norm_num [stratOk])
    0 2 ⟨10, 32767, 28⟩ ⟨5, 32767, 38⟩ (by norm_num) (by rfl) (by rfl)
    (by rfl) (by norm_num) (by norm_num)

/-! ### C8: duplicate file records in the index (package.rs:198-236) -/

/-- The triple-nested read loop of `Package::from_file` presents the index as a
stream of directory groups: for one extension string and one directory name, the
list of `(NAME, file-record)` pairs read before the empty-name terminator
(src/src/package.rs:198-236). -/
structure IndexGroup where
  ext : String
  dirname : String
  files : List (String × VFile)

/-- The repeated `children.insert(name, Entry::File(entry))` of the innermost
loop (package.rs:233): fold `ainsert` over the bindings in stream order.  The
`contains_key` probe before the insert (package.rs:228) only prints a warning
and leaves the map untouched, so it has no state to model. -/
def afoldIns : Children → List (String × VEntry) → Children
  | ch, [] => ch
  | ch, kv :: rest => afoldIns (ainsert ch kv.1 kv.2) rest

/-- The last binding a list of inserts leaves at `key`: later entries take
priority over earlier ones. -/
def lastAssign : List (String × VEntry) → String → Option VEntry
  | [], _ => none
  | kv :: rest, key =>
    match lastAssign rest key with
    | some v => some v
    | none => if kv.1 = key then some kv.2 else none

/-- The children map `mkpath` yields at `comps`, with missing directories read
as empty maps (the creation path of package.rs:95-102); junk on a blocked path,
which `mkpathApply` rejects anyway. -/
def navCreateD : Children → List String → Children
  | e, [] => e
  | e, c :: rest =>
    match alookup e c with
    | some (.dir d) => navCreateD d rest
    | some (.file _) => navCreateD [] rest
    | none => navCreateD [] rest

/-- `Package::from_file`'s index loop (package.rs:198-236) over the group
stream: `mkpath` on the directory name, then insert every `NAME.EXT` key of the
group into the returned children map; `?` aborts on the first error. -/
def parseIndex : Children → List IndexGroup → Except VErr Children
  | e, [] => .ok e
  | e, g :: rest =>
    match mkpathApply e (splitPath g.dirname)
        (fun ch => afoldIns ch (g.files.map (fun nf => (nf.1 ++ "." ++ g.ext, .file nf.2)))) with
    | .ok e' => parseIndex e' rest
    | .error err => .error err

theorem alookup_ainsert (ch : Children) (k : String) (v : VEntry) (key : String) :
    alookup (ainsert ch k v) key = if k = key then some v else alookup ch key := by
  induction ch with
  | nil => simp [ainsert, alookup]
  | cons kw rest ih =>
    obtain ⟨a, w⟩ := kw
    by_cases hak : a = k
    · subst hak
      by_cases hkey : a = key
      · subst hkey; simp [ainsert, alookup]
      · simp [ainsert, alookup, hkey]
    · by_cases hkey : a = key
      · subst hkey
        have hka : ¬ k = a := fun h => hak h.symm
        simp [ainsert, alookup, hak, hka]
      · simp [ainsert, alookup, hak, hkey, ih]

theorem alookup_afoldIns_of_last_none (l : List (String × VEntry)) :
    ∀ (ch : Children) (key : String), lastAssign l key = none →
    alookup (afoldIns ch l) key = alookup ch key := by
  induction l with
  | nil => intro ch key _; rfl
  | cons kv rest ih =>
    intro ch key h
    simp only [lastAssign] at h
    cases hr : lastAssign rest key with
    | some w =>
      rw [hr] at h
      exact Option.noConfusion h
    | none =>
      rw [hr] at h
      have h' : (if kv.1 = key then some kv.2 else none) = none := h
      have hne : ¬ kv.1 = key := by
        intro he
        rw [if_pos he] at h'
        exact Option.noConfusion h'
      show alookup (afoldIns (ainsert ch kv.1 kv.2) rest) key = alookup ch key
      rw [ih _ key hr, alookup_ainsert, if_neg hne]

theorem alookup_afoldIns_of_last_some (l : List (String × VEntry)) :
    ∀ (ch : Children) (key : String) (v : VEntry), lastAssign l key = some v →
    alookup (afoldIns ch l) key = some v := by
  induction l with
  | nil => intro ch key v h; exact Option.noConfusion h
  | cons kv rest ih =>
    intro ch key v h
    simp only [lastAssign] at h
    cases hr : lastAssign rest key with
    | some w =>
      rw [hr] at h
      have hw : some w = some v := h
      show alookup (afoldIns (ainsert ch kv.1 kv.2) rest) key = some v
      exact ih _ key v ((Option.some.inj hw) ▸ hr)
    | none =>
      rw [hr] at h
      have h' : (if kv.1 = key then some kv.2 else none) = some v := h
      have hk : kv.1 = key := by
        by_contra hne
        rw [if_neg hne] at h'
        exact Option.noConfusion h'
      rw [if_pos hk] at h'
      show alookup (afoldIns (ainsert ch kv.1 kv.2) rest) key = some v
      rw [alookup_afoldIns_of_last_none rest _ key hr, alookup_ainsert, if_pos hk]
      exact h'

theorem lastAssign_eq_none (l : List (String × VEntry)) :
    ∀ key, (∀ kv ∈ l, ¬ kv.1 = key) → lastAssign l key = none := by
  induction l with
  | nil => intro key _; rfl
  | cons kv rest ih =>
    intro key h
    have hr := ih key (fun kv' h' => h kv' (List.mem_cons_of_mem _ h'))
    simp only [lastAssign, hr, if_neg (h kv (List.mem_cons_self _ _))]

theorem getEntry_cons_of_ne_nil (e : Children) (c : String) (l : List String)
    (h : l ≠ []) :
    getEntry e (c :: l) =
      (match alookup e c with
       | some (.dir d) => getEntry d l
       | _ => none) := by
  cases l with
  | nil => exact absurd rfl h
  | cons r rs => rfl

/-- After a successful `mkpath`-and-insert, looking up `key` directly under the
created directory path reads the continuation's output map. -/
theorem mkpathApply_getEntry (comps : List String) :
    ∀ (e out : Children) (k : Children → Children),
    mkpathApply e comps k = .ok out →
    ∀ key, getEntry out (comps ++ [key]) = alookup (k (navCreateD e comps)) key := by
  induction comps with
  | nil =>
    intro e out k hok key
    have h : k e = out := by
      simpa only [mkpathApply, Except.ok.injEq] using hok
    rw [← h]
    rfl
  | cons c rest ih =>
    intro e out k hok key
    rw [mkpathApply_cons] at hok
    cases hc : alookup e c with
    | some v =>
      cases v with
      | file vf =>
        simp only [hc] at hok
        exact Except.noConfusion hok
      | dir d =>
        simp only [hc] at hok
        cases hrec : mkpathApply d rest k with
        | error err =>
          rw [hrec] at hok
          exact Except.noConfusion hok
        | ok sub =>
          simp only [hrec, Except.map, Except.ok.injEq] at hok
          rw [← hok]
          have hne : rest ++ [key] ≠ [] := by simp
          rw [List.cons_append, getEntry_cons_of_ne_nil _ _ _ hne,
            alookup_ainsert, if_pos rfl]
          have hnav : navCreateD e (c :: rest) = navCreateD d rest := by
            simp only [navCreateD, hc]
          rw [hnav]
          exact ih d sub k hrec key
    | none =>
      simp only [hc] at hok
      cases hrec : mkpathApply [] rest k with
      | error err =>
        rw [hrec] at hok
        exact Except.noConfusion hok
      | ok sub =>
        simp only [hrec, Except.map, Except.ok.injEq] at hok
        rw [← hok]
        have hne : rest ++ [key] ≠ [] := by simp
        rw [List.cons_append, getEntry_cons_of_ne_nil _ _ _ hne,
          alookup_ainsert, if_pos rfl]
        have hnav : navCreateD e (c :: rest) = navCreateD [] rest := by
          simp only [navCreateD, hc]
        rw [hnav]
        exact ih [] sub k hrec key

/-- A later successful `mkpath`-and-insert preserves a file already reachable at
`comps ++ [key]`, provided none of its inserted bindings lands on that location
or on an ancestor component of it. -/
theorem mkpathApply_preserves (q : List String) :
    ∀ (kvs : List (String × VEntry)) (e e' : Children) (comps : List String)
      (key : String) (f : VFile),
    mkpathApply e q (fun ch => afoldIns ch kvs) = .ok e' →
    getEntry e (comps ++ [key]) = some (.file f) →
    (∀ kv ∈ kvs, ¬ (q ++ [kv.1] <+: comps ++ [key])) →
    getEntry e' (comps ++ [key]) = some (.file f) := by
  induction q with
  | nil =>
    intro kvs e e' comps key f hok hloc hno
    have he' : afoldIns e kvs = e' := by
      simpa only [mkpathApply, Except.ok.injEq] using hok
    rw [← he']
    cases comps with
    | nil =>
      show alookup (afoldIns e kvs) key = some (.file f)
      have hn : lastAssign kvs key = none := by
        apply lastAssign_eq_none
        intro kv hkv he
        exact hno kv hkv ⟨[], by subst he; simp⟩
      rw [alookup_afoldIns_of_last_none _ _ _ hn]
      exact hloc
    | cons c cs =>
      have hne : cs ++ [key] ≠ [] := by simp
      rw [List.cons_append, getEntry_cons_of_ne_nil _ _ _ hne] at hloc
      rw [List.cons_append, getEntry_cons_of_ne_nil _ _ _ hne]
      have hkc : lastAssign kvs c = none := by
        apply lastAssign_eq_none
        intro kv hkv he
        exact hno kv hkv ⟨cs ++ [key], by subst he; simp⟩
      rw [alookup_afoldIns_of_last_none _ _ _ hkc]
      exact hloc
  | cons c qrest ih =>
    intro kvs e e' comps key f hok hloc hno
    rw [mkpathApply_cons] at hok
    cases hc : alookup e c with
    | some v =>
      cases v with
      | file vf =>
        simp only [hc] at hok
        exact Except.noConfusion hok
      | dir d =>
        simp only [hc] at hok
        cases hrec : mkpathApply d qrest (fun ch => afoldIns ch kvs) with
        | error err =>
          rw [hrec] at hok
          exact Except.noConfusion hok
        | ok sub =>
          simp only [hrec, Except.map, Except.ok.injEq] at hok
          rw [← hok]
          cases comps with
          | nil =>
            show alookup (ainsert e c (.dir sub)) key = some (.file f)
            rw [alookup_ainsert]
            by_cases hck : c = key
            · exfalso
              have hl : alookup e key = some (.file f) := hloc
              rw [← hck, hc] at hl
              exact VEntry.noConfusion (Option.some.inj hl)
            · rw [if_neg hck]
              exact hloc
          | cons c' cs =>
            have hne : cs ++ [key] ≠ [] := by simp
            rw [List.cons_append, getEntry_cons_of_ne_nil _ _ _ hne] at hloc
            rw [List.cons_append, getEntry_cons_of_ne_nil _ _ _ hne]
            rw [alookup_ainsert]
            by_cases hcc : c = c'
            · subst hcc
              rw [if_pos rfl]
              rw [hc] at hloc
              have hloc' : getEntry d (cs ++ [key]) = some (.file f) := hloc
              have hno' : ∀ kv ∈ kvs, ¬ (qrest ++ [kv.1] <+: cs ++ [key]) := by
                intro kv hkv hpre
                refine hno kv hkv ?_
                obtain ⟨t, ht⟩ := hpre
                refine ⟨t, ?_⟩
                simp only [List.cons_append, List.append_assoc] at ht ⊢
                rw [ht]
              exact ih kvs d sub cs key f hrec hloc' hno'
            · rw [if_neg hcc]
              exact hloc
    | none =>
      simp only [hc] at hok
      cases hrec : mkpathApply [] qrest (fun ch => afoldIns ch kvs) with
      | error err =>
        rw [hrec] at hok
        exact Except.noConfusion hok
      | ok sub =>
        simp only [hrec, Except.map, Except.ok.injEq] at hok
        rw [← hok]
        cases comps with
        | nil =>
          show alookup (ainsert e c (.dir sub)) key = some (.file f)
          rw [alookup_ainsert]
          by_cases hck : c = key
          · exfalso
            have hl : alookup e key = some (.file f) := hloc
            rw [← hck, hc] at hl
            exact Option.noConfusion hl
          · rw [if_neg hck]
            exact hloc
        | cons c' cs =>
          have hne : cs ++ [key] ≠ [] := by simp
          rw [List.cons_append, getEntry_cons_of_ne_nil _ _ _ hne] at hloc
          rw [List.cons_append, getEntry_cons_of_ne_nil _ _ _ hne]
          rw [alookup_ainsert]
          by_cases hcc : c = c'
          · exfalso
            rw [← hcc, hc] at hloc
            exact Option.noConfusion hloc
          · rw [if_neg hcc]
            exact hloc

theorem parseIndex_append (l₁ l₂ : List IndexGroup) :
    ∀ e, parseIndex e (l₁ ++ l₂) =
      (match parseIndex e l₁ with
       | .ok e' => parseIndex e' l₂
       | .error err => .error err) := by
  induction l₁ with
  | nil => intro e; rfl
  | cons gp rest ih =>
    intro e
    simp only [List.cons_append, parseIndex]
    cases mkpathApply e (splitPath gp.dirname)
        (fun ch => afoldIns ch (gp.files.map
          (fun nf => (nf.1 ++ "." ++ gp.ext, .file nf.2)))) with
    | ok e' => exact ih e'
    | error err => rfl

theorem parseIndex_preserves (post : List IndexGroup) :
    ∀ (e tree : Children) (comps : List String) (key : String) (f : VFile),
    getEntry e (comps ++ [key]) = some (.file f) →
    parseIndex e post = .ok tree →
    (∀ gp ∈ post, ∀ nf ∈ gp.files,
      ¬ (splitPath gp.dirname ++ [nf.1 ++ "." ++ gp.ext] <+: comps ++ [key])) →
    getEntry tree (comps ++ [key]) = some (.file f) := by
  induction post with
  | nil =>
    intro e tree comps key f hloc hrun _
    have h : e = tree := by
      simpa only [parseIndex, Except.ok.injEq] using hrun
    rw [← h]
    exact hloc
  | cons gp rest ih =>
    intro e tree comps key f hloc hrun hno
    simp only [parseIndex] at hrun
    cases hg : mkpathApply e (splitPath gp.dirname)
        (fun ch => afoldIns ch (gp.files.map
          (fun nf => (nf.1 ++ "." ++ gp.ext, .file nf.2)))) with
    | error err =>
      rw [hg] at hrun
      exact Except.noConfusion hrun
    | ok e' =>
      rw [hg] at hrun
      have hrun' : parseIndex e' rest = .ok tree := hrun
      have hloc' := mkpathApply_preserves (splitPath gp.dirname) _ e e' comps key f
        hg hloc (by
          intro kv hkv
          obtain ⟨nf, hnf, rfl⟩ := List.mem_map.mp hkv
          exact hno gp (List.mem_cons_self _ _) nf hnf)
      exact ih e' tree comps key f hloc' hrun'
        (fun gp' h1 nf h2 => hno gp' (List.mem_cons_of_mem _ h1) nf h2)

/-- C8: when the parsed index contains two or more file records with the same
extension, directory and name, the reader does not fail on their account
(duplicate keys only trigger the warning branch of package.rs:228-231, and the
`HashMap::insert` of package.rs:233 replaces the earlier binding), and the
resulting model holds exactly the entry of the last such record in index order:
if the group `g` is the last one whose directory resolves to the location (no
later group inserts at it or overwrites one of its ancestor directories), the
tree the parse returns maps `dirname/NAME.EXT` to the last record `g` holds
under that name. -/
theorem parse_last_duplicate_wins
    (pre post : List IndexGroup) (g : IndexGroup) (tree : Children)
    (name : String) (f : VFile)
    (hrun : parseIndex [] (pre ++ g :: post) = .ok tree)
    (hlast : lastAssign (g.files.map (fun nf => (nf.1 ++ "." ++ g.ext, .file nf.2)))
      (name ++ "." ++ g.ext) = some (.file f))
    (hpost : ∀ gp ∈ post, ∀ nf ∈ gp.files,
      ¬ (splitPath gp.dirname ++ [nf.1 ++ "." ++ gp.ext] <+:
         splitPath g.dirname ++ [name ++ "." ++ g.ext])) :
    getEntry tree (splitPath g.dirname ++ [name ++ "." ++ g.ext]) =
      some (.file f) := by
  rw [parseIndex_append] at hrun
  cases hpre : parseIndex [] pre with
  | error err =>
    rw [hpre] at hrun
    exact Except.noConfusion hrun
  | ok e1 =>
    rw [hpre] at hrun
    have hrun1 : parseIndex e1 (g :: post) = .ok tree := hrun
    simp only [parseIndex] at hrun1
    cases hg : mkpathApply e1 (splitPath g.dirname)
        (fun ch => afoldIns ch (g.files.map
          (fun nf => (nf.1 ++ "." ++ g.ext, .file nf.2)))) with
    | error err =>
      rw [hg] at hrun1
      exact Except.noConfusion hrun1
    | ok e2 =>
      rw [hg] at hrun1
      have hrun2 : parseIndex e2 post = .ok tree := hrun1
      have hloc : getEntry e2
          (splitPath g.dirname ++ [name ++ "." ++ g.ext]) = some (.file f) := by
        rw [mkpathApply_getEntry (splitPath g.dirname) e1 e2 _ hg
          (name ++ "." ++ g.ext)]
        exact alookup_afoldIns_of_last_some _ _ _ _ hlast
      exact parseIndex_preserves post e2 tree _ _ f hloc hrun2 hpost

def c8f1 : VFile := ⟨0, 11, 0, 32767, 0, 0, []⟩

def c8f2 : VFile := ⟨1, 22, 0, 32767, 0, 0, []⟩

def c8f3 : VFile := ⟨2, 33, 0, 32767, 0, 0, []⟩

def c8dup : IndexGroup := ⟨"txt", "a/b", [("x", c8f1), ("x", c8f2)]⟩

def c8later : IndexGroup := ⟨"txt", "a/b", [("y", c8f3)]⟩

def c8tree : Children :=
  [("a", .dir [("b", .dir [("x.txt", .file c8f2), ("y.txt", .file c8f3)])])]

/-- C8 witness: a group holding the same `x.txt` record twice parses
successfully (no error despite the duplicate) and the tree keeps the second
record; a later group in the same directory does not disturb it. -/
theorem parse_last_duplicate_wins_witness :
    parseIndex [] ([] ++ c8dup :: [c8later]) = .ok c8tree ∧
    getEntry c8tree (splitPath c8dup.dirname ++ ["x" ++ "." ++ c8dup.ext]) =
      some (.file c8f2) :=
  ⟨by rfl,
   parse_last_duplicate_wins [] [c8later] c8dup c8tree "x" c8f2 (by rfl) (by rfl)
     (by decide)⟩

end RustVpk
